import Mathlib

/-!
Verification of the gkvlite store (store.go): a persistable key-value store
built on immutable, copy-on-write treaps.

The embedding models the memory-resident semantics of the code: byte strings
are lists of naturals, a treap node is an inductive tree, and the lazy
`nodeLoc.read` / `itemLoc.read` steps — which are no-ops for in-memory
(dirty) nodes — vanish.  Stateful Go methods (which assign `t.root`) become
explicit state passing.  The on-disk item record codec and the backward
root-recovery scan are modelled over lists of bytes.
-/

namespace Gkvlite

/-- Byte strings ([]byte in the source) as lists of naturals. -/
abbrev Bytes := List Nat

/-- KeyCompare: user-supplied comparison returning 0 / negative / positive
(source: `type KeyCompare func(a, b []byte) int`). -/
abbrev KeyCompare := Bytes → Bytes → Int

/-- bytes.Compare, the default comparator: lexicographic order on byte
strings, shorter prefix first. -/
def bytesCompare : Bytes → Bytes → Int
  | [], [] => 0
  | [], _ :: _ => -1
  | _ :: _, [] => 1
  | a :: as, b :: bs =>
    if a < b then -1 else if b < a then 1 else bytesCompare as bs

/-- Lawfulness of a user comparator, as assumed by the spec ("comparator:
total order over byte sequences"): zero exactly on equal keys, antisymmetric,
transitive. -/
def LawfulCmp (cmp : KeyCompare) : Prop :=
  (∀ a b, cmp a b = 0 ↔ a = b) ∧
  (∀ a b, cmp a b < 0 ↔ cmp b a > 0) ∧
  (∀ a b c, cmp a b < 0 → cmp b c < 0 → cmp a c < 0)

/-- A persistable item (source: `type Item struct`).  `val = none` models a
nil Go slice (distinct from `some []`, the empty slice).  Priority is a
signed 32-bit integer in the source; comparisons never overflow, so `Int`
is used with range side conditions where encoding matters. -/
structure Item where
  key : Bytes
  val : Option Bytes
  priority : Int
  deriving DecidableEq, Repr

/-- In-memory treap node (source: `type node struct` with `nodeLoc`
children; the empty `nodeLoc` sentinel becomes the `leaf` constructor). -/
inductive Node where
  | leaf : Node
  | node : Item → Node → Node → Node
  deriving DecidableEq, Repr

namespace Node

/-- Number of items in a tree (termination measure for join/union). -/
def size : Node → Nat
  | leaf => 0
  | node _ l r => 1 + l.size + r.size

/-- In-order item sequence of a tree. -/
def inorder : Node → List Item
  | leaf => []
  | node it l r => l.inorder ++ it :: r.inorder

end Node

/-- Store.split (source lines 679–717): split a treap at key `s` into
(keys < s, the found node or leaf, keys > s). -/
def split (cmp : KeyCompare) : Node → Bytes → Node × Node × Node
  | Node.leaf, _ => (Node.leaf, Node.leaf, Node.leaf)
  | Node.node it l r, s =>
    let c := cmp s it.key
    if c = 0 then (l, Node.node it l r, r)
    else if c < 0 then
      let q := split cmp l s
      (q.1, q.2.1, Node.node it q.2.2 r)
    else
      let q := split cmp r s
      (Node.node it l q.1, q.2.1, q.2.2)

theorem split_size_left (cmp : KeyCompare) (n : Node) (s : Bytes) :
    (split cmp n s).1.size ≤ n.size := by
  induction n with
  | leaf => simp [split, Node.size]
  | node it l r ihl ihr =>
    simp only [split]
    by_cases h0 : cmp s it.key = 0
    · simp [h0, Node.size] <;> omega
    · by_cases h1 : cmp s it.key < 0
      · simp [h0, h1, Node.size] <;> omega
      · simp [h0, h1, Node.size] <;> omega

theorem split_size_right (cmp : KeyCompare) (n : Node) (s : Bytes) :
    (split cmp n s).2.2.size ≤ n.size := by
  induction n with
  | leaf => simp [split, Node.size]
  | node it l r ihl ihr =>
    simp only [split]
    by_cases h0 : cmp s it.key = 0
    · simp [h0, Node.size] <;> omega
    · by_cases h1 : cmp s it.key < 0
      · simp [h0, h1, Node.size] <;> omega
      · simp [h0, h1, Node.size] <;> omega

/-- Store.join (source lines 720–761): merge two treaps, all keys of the
first assumed below all keys of the second; higher priority wins the root,
ties go to the right (`that`) side. -/
def join : Node → Node → Node
  | Node.leaf, that => that
  | Node.node ti tl tr, Node.leaf => Node.node ti tl tr
  | Node.node ti tl tr, Node.node ui ul ur =>
    if ti.priority > ui.priority then
      Node.node ti tl (join tr (Node.node ui ul ur))
    else
      Node.node ui (join (Node.node ti tl tr) ul) ur
termination_by a b => a.size + b.size
decreasing_by
  all_goals (simp [Node.size]; try omega)

/-- Store.union (source lines 607–672): merge two treaps over the same key
space; on a key collision the `that` side wins.  When the higher-priority
root comes from `this`, `that` is split at `this`'s key and a non-empty
middle (the colliding `that` item) replaces `this`'s item in the result. -/
def union (cmp : KeyCompare) : Node → Node → Node
  | Node.leaf, that => that
  | Node.node ti tl tr, Node.leaf => Node.node ti tl tr
  | Node.node ti tl tr, Node.node ui ul ur =>
    if ti.priority > ui.priority then
      let q := split cmp (Node.node ui ul ur) ti.key
      let newLeft := union cmp tl q.1
      let newRight := union cmp tr q.2.2
      match q.2.1 with
      | Node.leaf => Node.node ti newLeft newRight
      | Node.node mi _ _ => Node.node mi newLeft newRight
    else
      let q := split cmp (Node.node ti tl tr) ui.key
      Node.node ui (union cmp q.1 ul) (union cmp q.2.2 ur)
termination_by a b => a.size + b.size
decreasing_by
  · have h := split_size_left cmp (Node.node ui ul ur) ti.key
    simp [Node.size] at h ⊢
    omega
  · have h := split_size_right cmp (Node.node ui ul ur) ti.key
    simp [Node.size] at h ⊢
    omega
  · have h := split_size_left cmp (Node.node ti tl tr) ui.key
    simp [Node.size] at h ⊢
    omega
  · have h := split_size_right cmp (Node.node ti tl tr) ui.key
    simp [Node.size] at h ⊢
    omega

/-- Collection.GetItem's BST descent (source lines 446–478), for an
in-memory tree. -/
def getItemNode (cmp : KeyCompare) (key : Bytes) : Node → Option Item
  | Node.leaf => none
  | Node.node it l r =>
    let c := cmp key it.key
    if c < 0 then getItemNode cmp key l
    else if c > 0 then getItemNode cmp key r
    else some it

/-- Store.edge with the left-child selector (source lines 763–784 via
Collection.MinItem): follow the chosen child until it is empty and return
that node's item. -/
def minItemNode : Node → Option Item
  | Node.leaf => none
  | Node.node it l _ =>
    match l with
    | Node.leaf => some it
    | Node.node mi ml mr => minItemNode (Node.node mi ml mr)

/-- Store.edge with the right-child selector (Collection.MaxItem). -/
def maxItemNode : Node → Option Item
  | Node.leaf => none
  | Node.node it _ r =>
    match r with
    | Node.leaf => some it
    | Node.node mi ml mr => maxItemNode (Node.node mi ml mr)

/-- Store.visitAscendNode (source lines 786–811) with a pure visitor: the
boolean result is the keep-going flag, and the list records the items the
visitor was called on, in call order. -/
def visitAscendNode (cmp : KeyCompare) (visitor : Item → Bool)
    (target : Bytes) : Node → Bool × List Item
  | Node.leaf => (true, [])
  | Node.node it l r =>
    if cmp target it.key ≤ 0 then
      let q := visitAscendNode cmp visitor target l
      if q.1 = false then (false, q.2)
      else if visitor it = false then (false, q.2 ++ [it])
      else
        let q2 := visitAscendNode cmp visitor target r
        (q2.1, (q.2 ++ [it]) ++ q2.2)
    else visitAscendNode cmp visitor target r

/-- A collection: comparator plus treap root (source: `type Collection
struct`; the `store` back-pointer carries no collection-level state). -/
structure Collection where
  compare : KeyCompare
  root : Node

/-- The collection created by Store.SetCollection for a new name:
empty root, the given comparator. -/
def mkCollection (cmp : KeyCompare) : Collection :=
  { compare := cmp, root := Node.leaf }

/-- Collection.GetItem (source lines 446–478). -/
def Collection.getItem (t : Collection) (key : Bytes) : Option Item :=
  getItemNode t.compare key t.root

/-- Collection.Get (source lines 482–491): the found item's Val, nil
otherwise. -/
def Collection.get (t : Collection) (key : Bytes) : Option Bytes :=
  match t.getItem key with
  | some i => i.val
  | none => none

/-- Collection.SetItem (source lines 497–513).  Returned pair is the
collection after the call (the receiver is mutated only on success) and the
error, if any. -/
def Collection.setItem (t : Collection) (item : Item) : Collection × Option String :=
  if item.key.length > 0xffff ∨ item.key = [] ∨ item.val = none then
    (t, some "Item.Key/Val missing or too long")
  else
    ({ t with
        root := union t.compare t.root
          (Node.node { key := item.key, val := item.val, priority := item.priority }
            Node.leaf Node.leaf) },
      none)

/-- Collection.Set (source lines 516–518); the random priority is passed
explicitly, and `val` is optional because a Go caller may pass a nil
slice through to SetItem. -/
def Collection.set (t : Collection) (key : Bytes) (val : Option Bytes)
    (priority : Int) : Collection × Option String :=
  t.setItem { key := key, val := val, priority := priority }

/-- Collection.Delete (source lines 521–532). -/
def Collection.del (t : Collection) (key : Bytes) : Collection :=
  let q := split t.compare t.root key
  { t with root := join q.1 q.2.2 }

/-- Collection.MinItem (source lines 536–538). -/
def Collection.minItem (t : Collection) : Option Item :=
  minItemNode t.root

/-- Collection.MaxItem (source lines 542–544). -/
def Collection.maxItem (t : Collection) : Option Item :=
  maxItemNode t.root

/-- Collection.VisitItemsAscend (source lines 549–552), pure-visitor form:
the items the visitor is called on, in call order. -/
def Collection.visitItemsAscend (t : Collection) (target : Bytes)
    (visitor : Item → Bool) : List Item :=
  (visitAscendNode t.compare visitor target t.root).2

/-- A public mutation on one collection. -/
inductive Op where
  | set (key : Bytes) (val : Option Bytes) (priority : Int) : Op
  | setItem (item : Item) : Op
  | del (key : Bytes) : Op

/-- Applying one mutation, discarding any validation error (a failed
Set/SetItem leaves the collection as it was). -/
def applyOp (t : Collection) : Op → Collection
  | Op.set k v p => (t.set k v p).1
  | Op.setItem it => (t.setItem it).1
  | Op.del k => t.del k

/-- Applying a sequence of mutations in order. -/
def applyOps (t : Collection) (ops : List Op) : Collection :=
  ops.foldl applyOp t

/-- The store: named collections, whether a backing file exists, and the
read-only flag (source: `type Store struct`; the append cursor and the
file contents are not needed for the store-level claims). -/
structure Store where
  coll : String → Option Collection
  hasFile : Bool
  readOnly : Bool

/-- NewStore with a nil file (source lines 42–54): memory-only store. -/
def newMemoryStore : Store :=
  { coll := fun _ => none, hasFile := false, readOnly := false }

/-- Store.SetCollection (source lines 60–76): create the named collection
if absent, and (re)set its comparator; nil comparator defaults to
bytes.Compare. -/
def Store.setCollection (s : Store) (name : String) (cmp : Option KeyCompare) : Store :=
  let c := match cmp with
    | none => bytesCompare
    | some f => f
  { s with
    coll := fun n =>
      if n = name then
        match s.coll name with
        | none => some (mkCollection c)
        | some t => some { t with compare := c }
      else s.coll n }

/-- Store.RemoveCollection (source lines 96–105). -/
def Store.removeCollection (s : Store) (name : String) : Store :=
  { s with coll := fun n => if n = name then none else s.coll n }

/-- Store.Snapshot (source lines 150–166): same file handle, read-only,
a fresh collection map whose collections share compare and root with the
original. -/
def Store.snapshot (s : Store) : Store :=
  { coll := fun n =>
      match s.coll n with
      | none => none
      | some c => some { compare := c.compare, root := c.root },
    hasFile := s.hasFile,
    readOnly := true }

/-- Store.Flush (source lines 121–138): the two mode guards, then the
persistence work, which is abstracted as `body` (it touches only the file
and the dirty-location bookkeeping, neither of which carries key-value
content). -/
def Store.flush (s : Store) (body : Store → Except String Store) : Except String Store :=
  if s.readOnly then Except.error "readonly, so cannot Flush()"
  else if s.hasFile = false then
    Except.error "no file / in-memory only, so cannot Flush()"
  else body s

/-- A store-level mutation. -/
inductive StoreOp where
  | set (name : String) (key : Bytes) (val : Option Bytes) (priority : Int) : StoreOp
  | del (name : String) (key : Bytes) : StoreOp
  | setcoll (name : String) (cmp : Option KeyCompare) : StoreOp
  | removecoll (name : String) : StoreOp

/-- Applying a store-level mutation: Set/Delete act on the named
collection when it exists (GetCollection then the collection method). -/
def applyStoreOp (s : Store) : StoreOp → Store
  | StoreOp.set name k v p =>
    match s.coll name with
    | none => s
    | some t =>
      { s with coll := fun n => if n = name then some (t.set k v p).1 else s.coll n }
  | StoreOp.del name k =>
    match s.coll name with
    | none => s
    | some t =>
      { s with coll := fun n => if n = name then some (t.del k) else s.coll n }
  | StoreOp.setcoll name cmp => s.setCollection name cmp
  | StoreOp.removecoll name => s.removeCollection name

/-- Applying a sequence of store-level mutations. -/
def applyStoreOps (s : Store) (ops : List StoreOp) : Store :=
  ops.foldl applyStoreOp s

/-- Get through the store: the named collection's Get. -/
def Store.get (s : Store) (name : String) (key : Bytes) : Option Bytes :=
  match s.coll name with
  | none => none
  | some t => t.get key

/-- MinItem through the store. -/
def Store.minOf (s : Store) (name : String) : Option Item :=
  match s.coll name with
  | none => none
  | some t => t.minItem

/-- MaxItem through the store. -/
def Store.maxOf (s : Store) (name : String) : Option Item :=
  match s.coll name with
  | none => none
  | some t => t.maxItem

/-- VisitItemsAscend through the store. -/
def Store.visitOf (s : Store) (name : String) (target : Bytes)
    (visitor : Item → Bool) : List Item :=
  match s.coll name with
  | none => []
  | some t => t.visitItemsAscend target visitor

/-- Big-endian bytes of `n mod 256^w`, `w` bytes wide (binary.Write with
BigEndian on a fixed-width unsigned value). -/
def beBytes : Nat → Nat → Bytes
  | 0, _ => []
  | w + 1, n => beBytes w (n / 256) ++ [n % 256]

/-- Value of a big-endian byte string (binary.Read of an unsigned). -/
def beVal : Bytes → Nat
  | [] => 0
  | b :: rest => b * 256 ^ rest.length + beVal rest

/-- Two's-complement encoding of an int32 (binary.Write of int32). -/
def beI32 (p : Int) : Bytes :=
  beBytes 4 (p % 2 ^ 32).toNat

/-- binary.Read of a big-endian int32. -/
def decodeI32 (b : Bytes) : Int :=
  let v := beVal b
  if v ≥ 2 ^ 31 then (v : Int) - 2 ^ 32 else (v : Int)

/-- binary.Read of a big-endian int64. -/
def decodeI64 (b : Bytes) : Int :=
  let v := beVal b
  if v ≥ 2 ^ 63 then (v : Int) - 2 ^ 64 else (v : Int)

/-- itemLoc.write's record bytes (source lines 334–357): u32 total length,
u16 key length, u32 val length, i32 priority, key bytes, val bytes.  A nil
val writes zero bytes, like Go's `b.Write(nil)`. -/
def encodeItem (it : Item) : Bytes :=
  let valb := match it.val with
    | none => []
    | some v => v
  let length := 4 + 2 + 4 + 4 + it.key.length + valb.length
  beBytes 4 length ++ beBytes 2 it.key.length ++ beBytes 4 valb.length ++
    beI32 it.priority ++ it.key ++ valb

/-- itemLoc.read (source lines 359–400) on a record buffer: reads the
header, fails with the corruption error when the stored total length is
not header + keyLength + valLength (all in uint32 arithmetic), then slices
out the key, and the value when `withValue`. -/
def decodeItem (b : Bytes) (withValue : Bool) : Except String Item :=
  if b.length < 14 then Except.error "unexpected EOF"
  else
    let length := beVal (b.take 4)
    let keyLength := beVal ((b.drop 4).take 2)
    let valLength := beVal ((b.drop 6).take 4)
    let priority := decodeI32 ((b.drop 10).take 4)
    if length ≠ (4 + 2 + 4 + 4 + keyLength + valLength) % 2 ^ 32 then
      Except.error "mismatched itemLoc lengths"
    else
      Except.ok
        { key := (b.drop 14).take keyLength,
          val := if withValue then some (((b.drop 14).drop keyLength).take valLength)
                 else none,
          priority := priority }

/-- MAGIC_BEG = "0g1t2r" (source line 38). -/
def MAGIC_BEG : Bytes := [48, 103, 49, 116, 50, 114]

/-- MAGIC_END = "3e4a5p" (source line 39). -/
def MAGIC_END : Bytes := [51, 101, 52, 97, 53, 112]

/-- VERSION = 3 (source line 36). -/
def VERSION : Nat := 3

/-- The byte range `file[off, off+len)`. -/
def sub (file : Bytes) (off len : Nat) : Bytes :=
  (file.drop off).take len

/-- The error values Store.readRoots can return, by kind. -/
inductive ReadRootsError where
  | notFound : ReadRootsError
  | shortRead : ReadRootsError
  | versionMismatch (want found : Nat) : ReadRootsError
  | lengthMismatch (want found : Nat) : ReadRootsError
  | parseFailure (msg : String) : ReadRootsError
  deriving DecidableEq, Repr

/-- The 24-byte footer candidate ending at `size` (endBArr in the source). -/
def endBArr (file : Bytes) (size : Nat) : Bytes :=
  sub file (size - 24) 24

/-- The footer's trailing double MAGIC_END check. -/
def footerMagicOk (file : Bytes) (size : Nat) : Prop :=
  sub (endBArr file size) 12 6 = MAGIC_END ∧ sub (endBArr file size) 18 6 = MAGIC_END

/-- The candidate root offset decoded from the footer (int64 big-endian). -/
def footerOffset (file : Bytes) (size : Nat) : Int :=
  decodeI64 ((endBArr file size).take 8)

/-- The candidate record length decoded from the footer (uint32 big-endian). -/
def footerLength (file : Bytes) (size : Nat) : Nat :=
  beVal (sub (endBArr file size) 8 4)

/-- The footer validation: offset in range and length matching
`uint32(size - offset)`. -/
def footerRangeOk (file : Bytes) (size : Nat) : Prop :=
  0 ≤ footerOffset file size ∧ footerOffset file size < (size : Int) - 40 ∧
    footerLength file size = ((size : Int) - footerOffset file size).toNat % 2 ^ 32

/-- The candidate record bytes `[offset, size - 24)` (data in the source). -/
def rootData (file : Bytes) (size : Nat) : Bytes :=
  sub file (footerOffset file size).toNat (size - (footerOffset file size).toNat - 24)

/-- The record's leading double MAGIC_BEG check. -/
def headerMagicOk (file : Bytes) (size : Nat) : Prop :=
  (rootData file size).take 6 = MAGIC_BEG ∧ sub (rootData file size) 6 6 = MAGIC_BEG

instance (file : Bytes) (size : Nat) : Decidable (footerMagicOk file size) := by
  unfold footerMagicOk
  infer_instance

instance (file : Bytes) (size : Nat) : Decidable (footerRangeOk file size) := by
  unfold footerRangeOk
  infer_instance

instance (file : Bytes) (size : Nat) : Decidable (headerMagicOk file size) := by
  unfold headerMagicOk
  infer_instance

/-- Store.readRoots's backward scan (source lines 838–914), with the
caller's current candidate size as the decreasing argument.  The JSON
unmarshalling of the roots payload is the out-of-scope collaborator
`parse`.  Failures that decrement the size and rescan: missing MAGIC_END
footer, out-of-range root offset or footer length, missing MAGIC_BEG
header.  Failures that abort the scan with an error: a short payload
(binary.Read EOF), version mismatch, embedded-length crosscheck mismatch,
and JSON parse failure. -/
def readRootsLoop (parse : Bytes → Except String β) (file : Bytes) :
    Nat → Except ReadRootsError β
  | 0 => Except.error ReadRootsError.notFound
  | size + 1 =>
    if size + 1 ≤ 40 then Except.error ReadRootsError.notFound
    else if footerMagicOk file (size + 1) then
      if footerRangeOk file (size + 1) then
        if headerMagicOk file (size + 1) then
          if (rootData file (size + 1)).length < 20 then
            Except.error ReadRootsError.shortRead
          else if beVal (sub (rootData file (size + 1)) 12 4) ≠ VERSION then
            Except.error (ReadRootsError.versionMismatch VERSION
              (beVal (sub (rootData file (size + 1)) 12 4)))
          else if beVal (sub (rootData file (size + 1)) 16 4) ≠
              footerLength file (size + 1) then
            Except.error (ReadRootsError.lengthMismatch
              (beVal (sub (rootData file (size + 1)) 16 4))
              (footerLength file (size + 1)))
          else
            match parse ((rootData file (size + 1)).drop 20) with
            | Except.error e => Except.error (ReadRootsError.parseFailure e)
            | Except.ok m => Except.ok m
        else readRootsLoop parse file size
      else readRootsLoop parse file size
    else readRootsLoop parse file size

/-- Store.readRoots on a whole file: an empty (or absent) file yields an
empty store rather than an error. -/
def readRoots (parse : Bytes → Except String β) (file : Bytes) :
    Except ReadRootsError (Option β) :=
  if file.length = 0 then Except.ok none
  else (readRootsLoop parse file file.length).map some

/-- A root record as Store.writeRoots lays it out (source lines 813–836),
with the version as a parameter so that foreign-version records can be
described: double MAGIC_BEG, version, length, JSON payload, the record's
own offset, the length again, double MAGIC_END. -/
def rootRecordV (version : Nat) (sJSON : Bytes) (offset : Nat) : Bytes :=
  let length := 12 + 4 + 4 + sJSON.length + 8 + 4 + 12
  MAGIC_BEG ++ MAGIC_BEG ++ beBytes 4 version ++ beBytes 4 length ++ sJSON ++
    beBytes 8 offset ++ beBytes 4 length ++ MAGIC_END ++ MAGIC_END

/-- The strict in-order key relation of a collection's comparator. -/
def keyLt (cmp : KeyCompare) (a b : Item) : Prop :=
  cmp a.key b.key < 0

/-- The BST ordering invariant, structurally: left keys below, right keys
above the node's key. -/
def BSTN (cmp : KeyCompare) : Node → Prop
  | Node.leaf => True
  | Node.node it l r => BSTN cmp l ∧ BSTN cmp r ∧
      (∀ i ∈ l.inorder, cmp i.key it.key < 0) ∧
      (∀ i ∈ r.inorder, cmp it.key i.key < 0)

/-- The root item of `n` has priority at most `p` (trivially true of the
empty tree). -/
def rootPrioLe (p : Int) : Node → Bool
  | Node.leaf => true
  | Node.node it _ _ => decide (it.priority ≤ p)

/-- The treap heap invariant: every node's priority is at least each
direct child's priority. -/
def heapOk : Node → Bool
  | Node.leaf => true
  | Node.node it l r =>
    rootPrioLe it.priority l && rootPrioLe it.priority r && heapOk l && heapOk r

/-- The prefix of a list a stop-on-false visitor gets called on: all items
while the visitor answers true, plus the first item it answers false on. -/
def takeUpTo (visitor : Item → Bool) : List Item → List Item
  | [] => []
  | i :: is => if visitor i then i :: takeUpTo visitor is else [i]

/-- Reference model for C1, written from the spec's words: the value of
the most recent valid Set for each key, erased by a later Delete.  A Set
or SetItem that fails validation leaves the map unchanged. -/
def specStep (m : Bytes → Option Bytes) : Op → (Bytes → Option Bytes)
  | Op.set k v _ =>
    if k.length > 0xffff ∨ k = [] ∨ v = none then m
    else fun k2 => if k2 = k then v else m k2
  | Op.setItem it =>
    if it.key.length > 0xffff ∨ it.key = [] ∨ it.val = none then m
    else fun k2 => if k2 = it.key then it.val else m k2
  | Op.del k => fun k2 => if k2 = k then none else m k2

/-- Reference model for C1: fold of `specStep` from the empty map. -/
def specGet (ops : List Op) : Bytes → Option Bytes :=
  ops.foldl specStep (fun _ => none)

/-- Every Set/SetItem in the sequence targets a key that is absent at the
moment it is applied. -/
def freshOps (t : Collection) : List Op → Prop
  | [] => True
  | op :: ops =>
    (match op with
     | Op.set k _ _ => t.getItem k = none
     | Op.setItem it => t.getItem it.key = none
     | Op.del _ => True) ∧ freshOps (applyOp t op) ops

theorem bytesCompare_eq_zero : ∀ a b : Bytes, bytesCompare a b = 0 ↔ a = b
  | [], [] => by simp [bytesCompare]
  | [], _ :: _ => by simp [bytesCompare]
  | _ :: _, [] => by simp [bytesCompare]
  | a :: as, b :: bs => by
    simp only [bytesCompare]
    by_cases h1 : a < b
    · simp [h1] <;> omega
    · by_cases h2 : b < a
      · simp [h1, h2] <;> omega
      · have hab : a = b := by omega
        simp [h1, h2, hab, bytesCompare_eq_zero as bs]

theorem bytesCompare_neg_iff : ∀ a b : Bytes, bytesCompare a b < 0 ↔ bytesCompare b a > 0
  | [], [] => by simp [bytesCompare]
  | [], _ :: _ => by simp [bytesCompare]
  | _ :: _, [] => by simp [bytesCompare]
  | a :: as, b :: bs => by
    simp only [bytesCompare]
    by_cases h1 : a < b
    · have h2 : ¬ b < a := by omega
      simp [h1, h2]
    · by_cases h2 : b < a
      · simp [h1, h2]
      · have hab : a = b := by omega
        simp [h1, h2, hab, bytesCompare_neg_iff as bs]

theorem bytesCompare_trans :
    ∀ a b c : Bytes, bytesCompare a b < 0 → bytesCompare b c < 0 → bytesCompare a c < 0
  | [], [], _, h1, _ => by simp [bytesCompare] at h1
  | [], _ :: _, [], _, h2 => by simp [bytesCompare] at h2
  | [], _ :: _, _ :: _, _, _ => by simp [bytesCompare]
  | _ :: _, [], _, h1, _ => by simp [bytesCompare] at h1
  | _ :: _, _ :: _, [], _, h2 => by simp [bytesCompare] at h2
  | a :: as, b :: bs, c :: cs, h1, h2 => by
    simp only [bytesCompare] at h1 h2 ⊢
    by_cases hab : a < b
    · by_cases hbc : b < c
      · have hac : a < c := by omega
        simp [hac]
      · by_cases hcb : c < b
        · simp [hcb] at h2; omega
        · have hbc2 : b = c := by omega
          subst hbc2
          simp [hab]
    · by_cases hba : b < a
      · simp [hab, hba] at h1
      · have hab2 : a = b := by omega
        subst hab2
        by_cases hbc : a < c
        · simp [hbc]
        · by_cases hcb : c < a
          · simp [hbc, hcb] at h2
          · have hac : a = c := by omega
            subst hac
            simp [hab, hbc] at h1 h2 ⊢
            exact bytesCompare_trans as bs cs h1 h2

/-- bytes.Compare is a lawful comparator. -/
theorem bytesCompare_lawful : LawfulCmp bytesCompare :=
  ⟨bytesCompare_eq_zero, bytesCompare_neg_iff, bytesCompare_trans⟩

theorem cmp_eq_zero_iff {cmp : KeyCompare} (h : LawfulCmp cmp) (a b : Bytes) :
    cmp a b = 0 ↔ a = b := h.1 a b

theorem cmp_self {cmp : KeyCompare} (h : LawfulCmp cmp) (a : Bytes) :
    cmp a a = 0 := (h.1 a a).mpr rfl

theorem cmp_neg_iff {cmp : KeyCompare} (h : LawfulCmp cmp) (a b : Bytes) :
    cmp a b < 0 ↔ cmp b a > 0 := h.2.1 a b

theorem cmp_pos_iff {cmp : KeyCompare} (h : LawfulCmp cmp) (a b : Bytes) :
    cmp a b > 0 ↔ cmp b a < 0 := (h.2.1 b a).symm

theorem cmp_lt_trans {cmp : KeyCompare} (h : LawfulCmp cmp) {a b c : Bytes}
    (h1 : cmp a b < 0) (h2 : cmp b c < 0) : cmp a c < 0 := h.2.2 a b c h1 h2

theorem cmp_gt_trans {cmp : KeyCompare} (h : LawfulCmp cmp) {a b c : Bytes}
    (h1 : cmp a b > 0) (h2 : cmp b c > 0) : cmp a c > 0 := by
  rw [cmp_pos_iff h] at h1 h2 ⊢
  exact h.2.2 c b a h2 h1

theorem cmp_lt_asymm {cmp : KeyCompare} (h : LawfulCmp cmp) {a b : Bytes}
    (h1 : cmp a b < 0) : ¬ cmp b a < 0 := by
  rw [cmp_neg_iff h] at h1
  omega

theorem cmp_eq_zero_trans_lt {cmp : KeyCompare} (h : LawfulCmp cmp) {a b c : Bytes}
    (h1 : cmp a b = 0) (h2 : cmp b c < 0) : cmp a c < 0 := by
  have hab : a = b := (h.1 a b).mp h1
  subst hab
  exact h2

/-- The item returned by GetItem is in the tree and its key compares equal
to the query (no BST hypothesis needed). -/
theorem getItemNode_some (cmp : KeyCompare) (k : Bytes) :
    ∀ n i, getItemNode cmp k n = some i → i ∈ n.inorder ∧ cmp k i.key = 0 := by
  intro n
  induction n with
  | leaf => intro i hi; simp [getItemNode] at hi
  | node it l r ihl ihr =>
    intro i hi
    simp only [getItemNode] at hi
    by_cases h1 : cmp k it.key < 0
    · simp only [h1, if_pos] at hi
      rcases ihl i hi with ⟨hm, hc⟩
      exact ⟨by simp [Node.inorder, hm], hc⟩
    · by_cases h2 : cmp k it.key > 0
      · simp only [h1, h2, if_neg, if_pos, not_false_iff] at hi
        rcases ihr i hi with ⟨hm, hc⟩
        exact ⟨by simp [Node.inorder, hm], hc⟩
      · simp only [h1, h2, if_neg, not_false_iff] at hi
        cases hi
        exact ⟨by simp [Node.inorder], by omega⟩

/-- If no item in the tree matches the query key, GetItem finds nothing. -/
theorem getItemNode_none (cmp : KeyCompare) (k : Bytes) (n : Node)
    (h : ∀ i ∈ n.inorder, cmp k i.key ≠ 0) : getItemNode cmp k n = none := by
  cases hg : getItemNode cmp k n with
  | none => rfl
  | some i =>
    rcases getItemNode_some cmp k n i hg with ⟨hm, hc⟩
    exact absurd hc (h i hm)

/-- The structural BST invariant is equivalent to the in-order item list
being pairwise strictly ascending. -/
theorem bstn_iff_pairwise {cmp : KeyCompare} (h : LawfulCmp cmp) :
    ∀ n : Node, BSTN cmp n ↔ (n.inorder).Pairwise (keyLt cmp) := by
  intro n
  induction n with
  | leaf => simp [BSTN, Node.inorder]
  | node it l r ihl ihr =>
    simp only [BSTN, Node.inorder, List.pairwise_append, List.pairwise_cons, ihl, ihr]
    constructor
    · rintro ⟨hpl, hpr, hbl, hbr⟩
      refine ⟨hpl, ⟨fun b hb => hbr b hb, hpr⟩, ?_⟩
      intro a ha b hb
      simp only [List.mem_cons] at hb
      rcases hb with rfl | hb
      · exact hbl a ha
      · exact cmp_lt_trans h (hbl a ha) (hbr b hb)
    · rintro ⟨hpl, ⟨hbr, hpr⟩, hcross⟩
      refine ⟨hpl, hpr, ?_, hbr⟩
      intro a ha
      exact hcross a ha it (by simp)

/-- The left part of a split holds exactly the items with key below the
split key, in the original in-order order. -/
theorem split_inorder_left {cmp : KeyCompare} (h : LawfulCmp cmp) (s : Bytes) :
    ∀ n, BSTN cmp n →
      (split cmp n s).1.inorder =
        n.inorder.filter (fun i => decide (cmp i.key s < 0)) := by
  intro n
  induction n with
  | leaf => intro _; simp [split, Node.inorder]
  | node it l r ihl ihr =>
    rintro ⟨hbl, hbr, hkl, hkr⟩
    simp only [split]
    by_cases h0 : cmp s it.key = 0
    · have hs : s = it.key := (h.1 s it.key).mp h0
      subst hs
      rw [if_pos h0]
      have hfl : List.filter (fun i => decide (cmp i.key it.key < 0)) l.inorder
          = l.inorder :=
        List.filter_eq_self.mpr (fun a ha => by simpa using hkl a ha)
      have hfr : List.filter (fun i => decide (cmp i.key it.key < 0)) r.inorder
          = [] :=
        List.filter_eq_nil_iff.mpr (fun a ha => by
          have h2 : cmp a.key it.key > 0 := (h.2.1 it.key a.key).mp (hkr a ha)
          simp
          omega)
      have hit : ¬ cmp it.key it.key < 0 := by
        have := cmp_self h it.key
        omega
      simp [Node.inorder, List.filter_append, List.filter_cons, hfl, hfr, hit]
    · by_cases h1 : cmp s it.key < 0
      · rw [if_neg h0, if_pos h1]
        have hit : ¬ cmp it.key s < 0 := by
          have := (h.2.1 s it.key).mp h1
          omega
        have hfr : List.filter (fun i => decide (cmp i.key s < 0)) r.inorder
            = [] :=
          List.filter_eq_nil_iff.mpr (fun a ha => by
            have h2 : cmp s a.key < 0 := cmp_lt_trans h h1 (hkr a ha)
            have h3 : cmp a.key s > 0 := (h.2.1 s a.key).mp h2
            simp
            omega)
        simp [Node.inorder, List.filter_append, List.filter_cons, ihl hbl,
          hfr, hit]
      · rw [if_neg h0, if_neg h1]
        have hits : cmp it.key s < 0 := (h.2.1 it.key s).mpr (by omega)
        have hfl : List.filter (fun i => decide (cmp i.key s < 0)) l.inorder
            = l.inorder :=
          List.filter_eq_self.mpr (fun a ha => by
            have := cmp_lt_trans h (hkl a ha) hits
            simpa using this)
        simp [Node.inorder, List.filter_append, List.filter_cons, ihr hbr,
          hfl, hits]

/-- The right part of a split holds exactly the items with key above the
split key, in the original in-order order. -/
theorem split_inorder_right {cmp : KeyCompare} (h : LawfulCmp cmp) (s : Bytes) :
    ∀ n, BSTN cmp n →
      (split cmp n s).2.2.inorder =
        n.inorder.filter (fun i => decide (cmp s i.key < 0)) := by
  intro n
  induction n with
  | leaf => intro _; simp [split, Node.inorder]
  | node it l r ihl ihr =>
    rintro ⟨hbl, hbr, hkl, hkr⟩
    simp only [split]
    by_cases h0 : cmp s it.key = 0
    · have hs : s = it.key := (h.1 s it.key).mp h0
      subst hs
      rw [if_pos h0]
      have hfl : List.filter (fun i => decide (cmp it.key i.key < 0)) l.inorder
          = [] :=
        List.filter_eq_nil_iff.mpr (fun a ha => by
          have h2 : cmp it.key a.key > 0 := (h.2.1 a.key it.key).mp (hkl a ha)
          simp
          omega)
      have hfr : List.filter (fun i => decide (cmp it.key i.key < 0)) r.inorder
          = r.inorder :=
        List.filter_eq_self.mpr (fun a ha => by simpa using hkr a ha)
      have hit : ¬ cmp it.key it.key < 0 := by
        have := cmp_self h it.key
        omega
      simp [Node.inorder, List.filter_append, List.filter_cons, hfl, hfr, hit]
    · by_cases h1 : cmp s it.key < 0
      · rw [if_neg h0, if_pos h1]
        have hfr : List.filter (fun i => decide (cmp s i.key < 0)) r.inorder
            = r.inorder :=
          List.filter_eq_self.mpr (fun a ha => by
            have := cmp_lt_trans h h1 (hkr a ha)
            simpa using this)
        simp [Node.inorder, List.filter_append, List.filter_cons, ihl hbl,
          hfr, h1]
      · rw [if_neg h0, if_neg h1]
        have hits : cmp it.key s < 0 := (h.2.1 it.key s).mpr (by omega)
        have hfl : List.filter (fun i => decide (cmp s i.key < 0)) l.inorder
            = [] :=
          List.filter_eq_nil_iff.mpr (fun a ha => by
            have h2 : cmp a.key s < 0 := cmp_lt_trans h (hkl a ha) hits
            have h3 : cmp s a.key > 0 := (h.2.1 a.key s).mp h2
            simp
            omega)
        simp [Node.inorder, List.filter_append, List.filter_cons, ihr hbr,
          hfl, h1]

/-- The middle of a split is empty exactly when no key matches; otherwise
it is a node holding the (unique) matching item of the original tree. -/
theorem split_middle {cmp : KeyCompare} (h : LawfulCmp cmp) (s : Bytes) :
    ∀ n, BSTN cmp n →
      ((split cmp n s).2.1 = Node.leaf ∧ ∀ i ∈ n.inorder, i.key ≠ s) ∨
      (∃ mi ml mr, (split cmp n s).2.1 = Node.node mi ml mr ∧ mi.key = s ∧
        mi ∈ n.inorder) := by
  intro n
  induction n with
  | leaf => intro _; left; simp [split, Node.inorder]
  | node it l r ihl ihr =>
    rintro ⟨hbl, hbr, hkl, hkr⟩
    simp only [split]
    by_cases h0 : cmp s it.key = 0
    · have hs : s = it.key := (h.1 s it.key).mp h0
      subst hs
      right
      exact ⟨it, l, r, by rw [if_pos h0], rfl, by simp [Node.inorder]⟩
    · by_cases h1 : cmp s it.key < 0
      · rcases ihl hbl with ⟨hleaf, habs⟩ | ⟨mi, ml, mr, heq, hkey, hmem⟩
        · left
          refine ⟨by simp [h0, h1, hleaf], ?_⟩
          intro i hi
          simp only [Node.inorder, List.mem_append, List.mem_cons] at hi
          rcases hi with hi | rfl | hi
          · exact habs i hi
          · intro hc; rw [hc] at h0; exact h0 (cmp_self h s)
          · intro hc
            have h2 : cmp s i.key < 0 := cmp_lt_trans h h1 (hkr i hi)
            rw [hc] at h2
            exact absurd (cmp_self h s) (by omega)
        · right
          exact ⟨mi, ml, mr, by simp [h0, h1, heq], hkey, by simp [Node.inorder, hmem]⟩
      · rcases ihr hbr with ⟨hleaf, habs⟩ | ⟨mi, ml, mr, heq, hkey, hmem⟩
        · left
          refine ⟨by simp [h0, h1, hleaf], ?_⟩
          intro i hi
          simp only [Node.inorder, List.mem_append, List.mem_cons] at hi
          have hits : cmp it.key s < 0 :=
            (h.2.1 it.key s).mpr (by omega)
          rcases hi with hi | rfl | hi
          · intro hc
            have h2 : cmp i.key s < 0 := cmp_lt_trans h (hkl i hi) hits
            rw [hc] at h2
            exact absurd (cmp_self h s) (by omega)
          · intro hc; rw [hc] at h0; exact h0 ((h.1 s s).mpr rfl)
          · exact habs i hi
        · right
          exact ⟨mi, ml, mr, by simp [h0, h1, heq], hkey, by simp [Node.inorder, hmem]⟩

/-- Both outer split parts are again BSTs. -/
theorem bstn_split_left {cmp : KeyCompare} (h : LawfulCmp cmp) (s : Bytes)
    (n : Node) (hb : BSTN cmp n) : BSTN cmp (split cmp n s).1 := by
  rw [bstn_iff_pairwise h]
  rw [split_inorder_left h s n hb]
  exact ((bstn_iff_pairwise h n).mp hb).sublist (List.filter_sublist _)

theorem bstn_split_right {cmp : KeyCompare} (h : LawfulCmp cmp) (s : Bytes)
    (n : Node) (hb : BSTN cmp n) : BSTN cmp (split cmp n s).2.2 := by
  rw [bstn_iff_pairwise h]
  rw [split_inorder_right h s n hb]
  exact ((bstn_iff_pairwise h n).mp hb).sublist (List.filter_sublist _)

/-- join concatenates the in-order sequences (no hypotheses needed). -/
theorem inorder_join : ∀ a b : Node, (join a b).inorder = a.inorder ++ b.inorder
  | Node.leaf, b => by simp [join, Node.inorder]
  | Node.node ti tl tr, Node.leaf => by simp [join, Node.inorder]
  | Node.node ti tl tr, Node.node ui ul ur => by
    rw [join]
    by_cases hp : ti.priority > ui.priority
    · simp only [if_pos hp, Node.inorder,
        inorder_join tr (Node.node ui ul ur)]
      simp [Node.inorder]
    · simp only [if_neg hp, Node.inorder,
        inorder_join (Node.node ti tl tr) ul]
      simp [Node.inorder]
termination_by a b => a.size + b.size
decreasing_by
  all_goals (simp [Node.size]; try omega)

/-- On a BST, GetItem's descent returns the first (and only) in-order item
whose key compares equal to the query key. -/
theorem getItemNode_eq_find {cmp : KeyCompare} (h : LawfulCmp cmp) (k : Bytes) :
    ∀ n, BSTN cmp n →
      getItemNode cmp k n =
        n.inorder.find? (fun i => decide (cmp k i.key = 0)) := by
  intro n
  induction n with
  | leaf => intro _; simp [getItemNode, Node.inorder]
  | node it l r ihl ihr =>
    rintro ⟨hbl, hbr, hkl, hkr⟩
    simp only [getItemNode, Node.inorder, List.find?_append]
    by_cases h1 : cmp k it.key < 0
    · simp only [if_pos h1]
      rw [ihl hbl]
      have hrest :
          List.find? (fun i => decide (cmp k i.key = 0)) (it :: r.inorder) = none := by
        rw [List.find?_eq_none]
        intro x hx
        simp only [List.mem_cons] at hx
        rcases hx with rfl | hx
        · simp; omega
        · have h2 : cmp k x.key < 0 := cmp_lt_trans h h1 (hkr x hx)
          simp
          omega
      rw [hrest]
      cases List.find? (fun i => decide (cmp k i.key = 0)) l.inorder <;> simp
    · by_cases h2 : cmp k it.key > 0
      · have hnone :
            List.find? (fun i => decide (cmp k i.key = 0)) l.inorder = none := by
          rw [List.find?_eq_none]
          intro x hx
          have h3 : cmp k x.key > 0 :=
            cmp_gt_trans h h2 ((h.2.1 x.key it.key).mp (hkl x hx))
          simp
          omega
        simp only [h1, h2, if_neg, if_pos, not_false_iff, hnone]
        rw [ihr hbr]
        have hit : ¬ cmp k it.key = 0 := by omega
        simp [List.find?_cons, hit]
      · have h0 : cmp k it.key = 0 := by omega
        have hnone :
            List.find? (fun i => decide (cmp k i.key = 0)) l.inorder = none := by
          rw [List.find?_eq_none]
          intro x hx
          have hk : k = it.key := (h.1 k it.key).mp h0
          have h3 : cmp k x.key > 0 := by
            rw [hk]
            exact (h.2.1 x.key it.key).mp (hkl x hx)
          simp
          omega
        simp [h1, h2, hnone, List.find?_cons, h0]

theorem union_leaf_right (cmp : KeyCompare) : ∀ a, union cmp a Node.leaf = a
  | Node.leaf => by simp [union]
  | Node.node ti tl tr => by simp [union]

/-- find? commutes with a filter that keeps every match. -/
theorem find?_filter_eq (p q : Item → Bool) :
    ∀ l : List Item, (∀ x ∈ l, q x = true → p x = true) →
      (l.filter p).find? q = l.find? q := by
  intro l
  induction l with
  | nil => intro _; simp
  | cons a as ih =>
    intro hm
    by_cases hq : q a = true
    · have hp : p a = true := hm a (by simp) hq
      simp [List.filter_cons, hp, List.find?_cons, hq]
    · by_cases hp : p a = true
      · simp only [List.filter_cons, hp, if_pos]
        simp only [List.find?_cons, hq]
        simp only [Bool.not_eq_true] at hq
        simp [hq, ih fun x hx => hm x (by simp [hx])]
      · simp only [List.filter_cons, hp, if_neg, not_false_iff, Bool.false_eq_true]
        simp only [List.find?_cons]
        simp only [Bool.not_eq_true] at hq
        simp [hq, ih fun x hx => hm x (by simp [hx])]

/-- SetItem's union with the fresh single-node treap places the new item
at its key position and drops any item with a matching key. -/
theorem union_single_inorder {cmp : KeyCompare} (h : LawfulCmp cmp) (ni : Item) :
    ∀ t, BSTN cmp t →
      (union cmp t (Node.node ni Node.leaf Node.leaf)).inorder =
        t.inorder.filter (fun i => decide (cmp i.key ni.key < 0)) ++
          ni :: t.inorder.filter (fun i => decide (cmp ni.key i.key < 0)) := by
  intro t
  induction t with
  | leaf => intro _; simp [union, Node.inorder]
  | node ti tl tr ihl ihr =>
    rintro ⟨hbl, hbr, hkl, hkr⟩
    simp only [union]
    by_cases hp : ti.priority > ni.priority
    · rw [if_pos hp]
      simp only [split]
      by_cases h0 : cmp ti.key ni.key = 0
      · have hk : ti.key = ni.key := (h.1 ti.key ni.key).mp h0
        rw [if_pos h0]
        simp only [union_leaf_right, Node.inorder]
        have hfl : List.filter (fun i => decide (cmp i.key ni.key < 0)) tl.inorder
            = tl.inorder :=
          List.filter_eq_self.mpr (fun a ha => by
            have := hkl a ha
            rw [hk] at this
            simpa using this)
        have hfl2 : List.filter (fun i => decide (cmp ni.key i.key < 0)) tl.inorder
            = [] :=
          List.filter_eq_nil_iff.mpr (fun a ha => by
            have h1 : cmp a.key ni.key < 0 := by
              have := hkl a ha
              rwa [hk] at this
            have h2 : cmp ni.key a.key > 0 := (h.2.1 a.key ni.key).mp h1
            simp
            omega)
        have hfr : List.filter (fun i => decide (cmp i.key ni.key < 0)) tr.inorder
            = [] :=
          List.filter_eq_nil_iff.mpr (fun a ha => by
            have h1 : cmp ni.key a.key < 0 := by
              have := hkr a ha
              rwa [hk] at this
            have h2 : cmp a.key ni.key > 0 := (h.2.1 ni.key a.key).mp h1
            simp
            omega)
        have hfr2 : List.filter (fun i => decide (cmp ni.key i.key < 0)) tr.inorder
            = tr.inorder :=
          List.filter_eq_self.mpr (fun a ha => by
            have := hkr a ha
            rw [hk] at this
            simpa using this)
        have hti : ¬ cmp ti.key ni.key < 0 := by omega
        have hti2 : ¬ cmp ni.key ti.key < 0 := by
          have h3 : cmp ni.key ti.key = 0 := by
            rw [hk]
            exact cmp_self h ni.key
          omega
        simp [List.filter_append, List.filter_cons, hfl, hfl2, hfr, hfr2,
          hti, hti2]
      · by_cases h1 : cmp ti.key ni.key < 0
        · rw [if_neg h0, if_pos h1]
          simp only [union_leaf_right, Node.inorder, ihr hbr]
          have hfl : List.filter (fun i => decide (cmp i.key ni.key < 0)) tl.inorder
              = tl.inorder :=
            List.filter_eq_self.mpr (fun a ha => by
              have := cmp_lt_trans h (hkl a ha) h1
              simpa using this)
          have hfl2 : List.filter (fun i => decide (cmp ni.key i.key < 0)) tl.inorder
              = [] :=
            List.filter_eq_nil_iff.mpr (fun a ha => by
              have h2 : cmp a.key ni.key < 0 := cmp_lt_trans h (hkl a ha) h1
              have h3 : cmp ni.key a.key > 0 := (h.2.1 a.key ni.key).mp h2
              simp
              omega)
          have hni : ¬ cmp ni.key ti.key < 0 := by
            have := (h.2.1 ti.key ni.key).mp h1
            omega
          simp [List.filter_append, List.filter_cons, hfl, hfl2, h1, hni]
        · have h2 : cmp ni.key ti.key < 0 :=
            (h.2.1 ni.key ti.key).mpr (by omega)
          rw [if_neg h0, if_neg h1]
          simp only [union_leaf_right, Node.inorder, ihl hbl]
          have hfr : List.filter (fun i => decide (cmp i.key ni.key < 0)) tr.inorder
              = [] :=
            List.filter_eq_nil_iff.mpr (fun a ha => by
              have h3 : cmp ni.key a.key < 0 := cmp_lt_trans h h2 (hkr a ha)
              have h4 : cmp a.key ni.key > 0 := (h.2.1 ni.key a.key).mp h3
              simp
              omega)
          have hfr2 : List.filter (fun i => decide (cmp ni.key i.key < 0)) tr.inorder
              = tr.inorder :=
            List.filter_eq_self.mpr (fun a ha => by
              have := cmp_lt_trans h h2 (hkr a ha)
              simpa using this)
          have hti : ¬ cmp ti.key ni.key < 0 := h1
          simp [List.filter_append, List.filter_cons, hfr, hfr2, h2, hti]
    · rw [if_neg hp]
      simp only [union_leaf_right, Node.inorder]
      rw [split_inorder_left h ni.key (Node.node ti tl tr) ⟨hbl, hbr, hkl, hkr⟩,
        split_inorder_right h ni.key (Node.node ti tl tr) ⟨hbl, hbr, hkl, hkr⟩]
      simp [Node.inorder]

/-- The result of a SetItem union is again a BST. -/
theorem bstn_union_single {cmp : KeyCompare} (h : LawfulCmp cmp) (ni : Item)
    (t : Node) (hb : BSTN cmp t) :
    BSTN cmp (union cmp t (Node.node ni Node.leaf Node.leaf)) := by
  rw [bstn_iff_pairwise h, union_single_inorder h ni t hb]
  have hpw : t.inorder.Pairwise (keyLt cmp) := (bstn_iff_pairwise h t).mp hb
  rw [List.pairwise_append]
  refine ⟨hpw.sublist (List.filter_sublist _), ?_, ?_⟩
  · rw [List.pairwise_cons]
    refine ⟨?_, hpw.sublist (List.filter_sublist _)⟩
    intro b hb2
    have := (List.mem_filter.mp hb2).2
    simpa [keyLt] using this
  · intro a ha b hb2
    have ha2 := (List.mem_filter.mp ha).2
    simp only [decide_eq_true_eq] at ha2
    simp only [List.mem_cons] at hb2
    rcases hb2 with rfl | hb2
    · exact ha2
    · have hb3 := (List.mem_filter.mp hb2).2
      simp only [decide_eq_true_eq] at hb3
      exact cmp_lt_trans h ha2 hb3

/-- GetItem after a SetItem union: the new item for its own key, the old
answer for every other key. -/
theorem get_union_single {cmp : KeyCompare} (h : LawfulCmp cmp) (ni : Item)
    (t : Node) (hb : BSTN cmp t) (k : Bytes) :
    getItemNode cmp k (union cmp t (Node.node ni Node.leaf Node.leaf)) =
      if cmp k ni.key = 0 then some ni else getItemNode cmp k t := by
  rw [getItemNode_eq_find h k _ (bstn_union_single h ni t hb),
    union_single_inorder h ni t hb, getItemNode_eq_find h k t hb,
    List.find?_append]
  by_cases h0 : cmp k ni.key = 0
  · have hk : k = ni.key := (h.1 k ni.key).mp h0
    have hnone :
        (t.inorder.filter (fun i => decide (cmp i.key ni.key < 0))).find?
          (fun i => decide (cmp k i.key = 0)) = none := by
      rw [List.find?_eq_none]
      intro x hx
      have hx2 := (List.mem_filter.mp hx).2
      simp only [decide_eq_true_eq] at hx2
      have h2 : cmp ni.key x.key > 0 := (h.2.1 x.key ni.key).mp hx2
      rw [hk]
      simp
      omega
    simp [hnone, List.find?_cons, h0]
  · rw [if_neg h0]
    by_cases h1 : cmp k ni.key < 0
    · have hfind :
          (t.inorder.filter (fun i => decide (cmp i.key ni.key < 0))).find?
            (fun i => decide (cmp k i.key = 0)) =
          t.inorder.find? (fun i => decide (cmp k i.key = 0)) := by
        apply find?_filter_eq
        intro x _ hqx
        simp only [decide_eq_true_eq] at hqx ⊢
        have hkx : k = x.key := (h.1 k x.key).mp hqx
        rw [← hkx]
        exact h1
      have hnone2 :
          (t.inorder.filter (fun i => decide (cmp ni.key i.key < 0))).find?
            (fun i => decide (cmp k i.key = 0)) = none := by
        rw [List.find?_eq_none]
        intro x hx
        have hx2 := (List.mem_filter.mp hx).2
        simp only [decide_eq_true_eq] at hx2
        have h2 : cmp k x.key < 0 := cmp_lt_trans h h1 hx2
        simp
        omega
      rw [hfind]
      cases hfo : t.inorder.find? (fun i => decide (cmp k i.key = 0)) with
      | none => simp [List.find?_cons, h0, hnone2]
      | some x => simp
    · have h2 : cmp k ni.key > 0 := by omega
      have hnone :
          (t.inorder.filter (fun i => decide (cmp i.key ni.key < 0))).find?
            (fun i => decide (cmp k i.key = 0)) = none := by
        rw [List.find?_eq_none]
        intro x hx
        have hx2 := (List.mem_filter.mp hx).2
        simp only [decide_eq_true_eq] at hx2
        have h3 : cmp ni.key x.key > 0 := (h.2.1 x.key ni.key).mp hx2
        have h4 : cmp k x.key > 0 := cmp_gt_trans h h2 h3
        simp
        omega
      have hfind :
          (t.inorder.filter (fun i => decide (cmp ni.key i.key < 0))).find?
            (fun i => decide (cmp k i.key = 0)) =
          t.inorder.find? (fun i => decide (cmp k i.key = 0)) := by
        apply find?_filter_eq
        intro x _ hqx
        simp only [decide_eq_true_eq] at hqx ⊢
        have hkx : k = x.key := (h.1 k x.key).mp hqx
        rw [← hkx]
        exact (h.2.1 ni.key k).mpr h2
      simp [hnone, List.find?_cons, h0, hfind]

/-- Delete's join of the outer split parts concatenates their in-order
sequences: everything below the key, then everything above it. -/
theorem del_inorder {cmp : KeyCompare} (h : LawfulCmp cmp) (k0 : Bytes)
    (t : Node) (hb : BSTN cmp t) :
    (join (split cmp t k0).1 (split cmp t k0).2.2).inorder =
      t.inorder.filter (fun i => decide (cmp i.key k0 < 0)) ++
        t.inorder.filter (fun i => decide (cmp k0 i.key < 0)) := by
  rw [inorder_join, split_inorder_left h k0 t hb, split_inorder_right h k0 t hb]

/-- The tree after a Delete is again a BST. -/
theorem bstn_del {cmp : KeyCompare} (h : LawfulCmp cmp) (k0 : Bytes)
    (t : Node) (hb : BSTN cmp t) :
    BSTN cmp (join (split cmp t k0).1 (split cmp t k0).2.2) := by
  rw [bstn_iff_pairwise h, del_inorder h k0 t hb]
  have hpw : t.inorder.Pairwise (keyLt cmp) := (bstn_iff_pairwise h t).mp hb
  rw [List.pairwise_append]
  refine ⟨hpw.sublist (List.filter_sublist _), hpw.sublist (List.filter_sublist _), ?_⟩
  intro a ha b hb2
  have ha2 := (List.mem_filter.mp ha).2
  have hb3 := (List.mem_filter.mp hb2).2
  simp only [decide_eq_true_eq] at ha2 hb3
  exact cmp_lt_trans h ha2 hb3

/-- GetItem after a Delete: nothing for the deleted key, the old answer
for every other key. -/
theorem get_del {cmp : KeyCompare} (h : LawfulCmp cmp) (k0 : Bytes)
    (t : Node) (hb : BSTN cmp t) (k : Bytes) :
    getItemNode cmp k (join (split cmp t k0).1 (split cmp t k0).2.2) =
      if cmp k k0 = 0 then none else getItemNode cmp k t := by
  rw [getItemNode_eq_find h k _ (bstn_del h k0 t hb), del_inorder h k0 t hb,
    getItemNode_eq_find h k t hb, List.find?_append]
  by_cases h0 : cmp k k0 = 0
  · have hk : k = k0 := (h.1 k k0).mp h0
    subst hk
    have hn1 :
        (t.inorder.filter (fun i => decide (cmp i.key k < 0))).find?
          (fun i => decide (cmp k i.key = 0)) = none := by
      rw [List.find?_eq_none]
      intro x hx
      have hx2 := (List.mem_filter.mp hx).2
      simp only [decide_eq_true_eq] at hx2
      have h2 : cmp k x.key > 0 := (h.2.1 x.key k).mp hx2
      simp
      omega
    have hn2 :
        (t.inorder.filter (fun i => decide (cmp k i.key < 0))).find?
          (fun i => decide (cmp k i.key = 0)) = none := by
      rw [List.find?_eq_none]
      intro x hx
      have hx2 := (List.mem_filter.mp hx).2
      simp only [decide_eq_true_eq] at hx2
      simp
      omega
    simp [hn1, hn2, h0]
  · rw [if_neg h0]
    by_cases h1 : cmp k k0 < 0
    · have hfind :
          (t.inorder.filter (fun i => decide (cmp i.key k0 < 0))).find?
            (fun i => decide (cmp k i.key = 0)) =
          t.inorder.find? (fun i => decide (cmp k i.key = 0)) := by
        apply find?_filter_eq
        intro x _ hqx
        simp only [decide_eq_true_eq] at hqx ⊢
        have hkx : k = x.key := (h.1 k x.key).mp hqx
        rw [← hkx]
        exact h1
      have hn2 :
          (t.inorder.filter (fun i => decide (cmp k0 i.key < 0))).find?
            (fun i => decide (cmp k i.key = 0)) = none := by
        rw [List.find?_eq_none]
        intro x hx
        have hx2 := (List.mem_filter.mp hx).2
        simp only [decide_eq_true_eq] at hx2
        have h2 : cmp k x.key < 0 := cmp_lt_trans h h1 hx2
        simp
        omega
      rw [hfind, hn2]
      cases t.inorder.find? (fun i => decide (cmp k i.key = 0)) <;> simp
    · have h2 : cmp k k0 > 0 := by omega
      have hn1 :
          (t.inorder.filter (fun i => decide (cmp i.key k0 < 0))).find?
            (fun i => decide (cmp k i.key = 0)) = none := by
        rw [List.find?_eq_none]
        intro x hx
        have hx2 := (List.mem_filter.mp hx).2
        simp only [decide_eq_true_eq] at hx2
        have h3 : cmp k0 x.key > 0 := (h.2.1 x.key k0).mp hx2
        have h4 : cmp k x.key > 0 := cmp_gt_trans h h2 h3
        simp
        omega
      have hfind :
          (t.inorder.filter (fun i => decide (cmp k0 i.key < 0))).find?
            (fun i => decide (cmp k i.key = 0)) =
          t.inorder.find? (fun i => decide (cmp k i.key = 0)) := by
        apply find?_filter_eq
        intro x _ hqx
        simp only [decide_eq_true_eq] at hqx ⊢
        have hkx : k = x.key := (h.1 k x.key).mp hqx
        rw [← hkx]
        exact (h.2.1 k0 k).mpr h2
      simp [hn1, hfind]

/-- In a strictly sorted list with no key matching `k0`, the below-`k0`
items followed by the above-`k0` items is the whole list. -/
theorem filter_lt_append_filter_gt {cmp : KeyCompare} (h : LawfulCmp cmp)
    (k0 : Bytes) :
    ∀ l : List Item, l.Pairwise (keyLt cmp) → (∀ i ∈ l, cmp k0 i.key ≠ 0) →
      l.filter (fun i => decide (cmp i.key k0 < 0)) ++
        l.filter (fun i => decide (cmp k0 i.key < 0)) = l := by
  intro l
  induction l with
  | nil => intro _ _; simp
  | cons a as ih =>
    intro hpw habs
    rw [List.pairwise_cons] at hpw
    by_cases h1 : cmp a.key k0 < 0
    · have h2 : ¬ cmp k0 a.key < 0 := by
        have := (h.2.1 a.key k0).mp h1
        omega
      simp only [List.filter_cons, decide_eq_true_eq, h1, if_pos, h2, if_neg,
        not_false_iff]
      rw [List.cons_append]
      rw [ih hpw.2 fun i hi => habs i (by simp [hi])]
    · have h0 : cmp k0 a.key ≠ 0 := habs a (by simp)
      have h2 : cmp k0 a.key < 0 := by
        have h3 : ¬ cmp k0 a.key > 0 := by
          intro hgt
          exact h1 ((h.2.1 a.key k0).mpr hgt)
        omega
      have hn1 : List.filter (fun i => decide (cmp i.key k0 < 0)) as = [] :=
        List.filter_eq_nil_iff.mpr (fun x hx => by
          have h3 : cmp k0 x.key < 0 := cmp_lt_trans h h2 (hpw.1 x hx)
          have h4 : cmp x.key k0 > 0 := (h.2.1 k0 x.key).mp h3
          simp
          omega)
      have hn2 : List.filter (fun i => decide (cmp k0 i.key < 0)) as = as :=
        List.filter_eq_self.mpr (fun x hx => by
          have h3 : cmp k0 x.key < 0 := cmp_lt_trans h h2 (hpw.1 x hx)
          simpa using h3)
      simp only [List.filter_cons, decide_eq_true_eq, h1, if_neg,
        not_false_iff, h2, if_pos, hn1, hn2]
      simp

/-- One SetItem step preserves the BST invariant and tracks the map model. -/
theorem setItem_inv {cmp : KeyCompare} (h : LawfulCmp cmp) (t : Collection)
    (m : Bytes → Option Bytes) (hcmp : t.compare = cmp) (hb : BSTN cmp t.root)
    (hget : ∀ k, t.get k = m k) (it : Item) :
    (t.setItem it).1.compare = cmp ∧ BSTN cmp (t.setItem it).1.root ∧
      ∀ k, (t.setItem it).1.get k =
        (if it.key.length > 0xffff ∨ it.key = [] ∨ it.val = none then m
         else fun k2 => if k2 = it.key then it.val else m k2) k := by
  by_cases hv : it.key.length > 0xffff ∨ it.key = [] ∨ it.val = none
  · simp only [Collection.setItem, hv, if_pos]
    exact ⟨hcmp, hb, fun k => by simp [hv, hget k]⟩
  · refine ⟨by simp [Collection.setItem, hv, hcmp], ?_, ?_⟩
    · simp only [Collection.setItem, hv, if_neg, not_false_iff]
      rw [hcmp]
      exact bstn_union_single h _ t.root hb
    · intro k
      simp only [Collection.setItem, hv, if_neg, not_false_iff]
      simp only [Collection.get, Collection.getItem]
      rw [hcmp]
      rw [get_union_single h _ t.root hb k]
      by_cases hk : cmp k it.key = 0
      · have hkk : k = it.key := (h.1 k it.key).mp hk
        subst hkk
        rw [if_pos hk]
        simp [hv]
      · have hkk : k ≠ it.key := by
          intro he
          exact hk ((h.1 k it.key).mpr he)
        rw [if_neg hk]
        have := hget k
        simp only [Collection.get, Collection.getItem, hcmp] at this
        simp [hv, hkk, this]

/-- One Delete step preserves the BST invariant and tracks the map model. -/
theorem del_inv {cmp : KeyCompare} (h : LawfulCmp cmp) (t : Collection)
    (m : Bytes → Option Bytes) (hcmp : t.compare = cmp) (hb : BSTN cmp t.root)
    (hget : ∀ k, t.get k = m k) (k0 : Bytes) :
    (t.del k0).compare = cmp ∧ BSTN cmp (t.del k0).root ∧
      ∀ k, (t.del k0).get k = if k = k0 then none else m k := by
  refine ⟨by simp [Collection.del, hcmp], ?_, ?_⟩
  · simp only [Collection.del]
    rw [hcmp]
    exact bstn_del h k0 t.root hb
  · intro k
    simp only [Collection.del, Collection.get, Collection.getItem]
    rw [hcmp]
    rw [get_del h k0 t.root hb k]
    by_cases hk : cmp k k0 = 0
    · have hkk : k = k0 := (h.1 k k0).mp hk
      subst hkk
      rw [if_pos hk]
      simp
    · have hkk : k ≠ k0 := by
        intro he
        exact hk ((h.1 k k0).mpr he)
      rw [if_neg hk, if_neg hkk]
      have := hget k
      simp only [Collection.get, Collection.getItem, hcmp] at this
      exact this

/-- One public operation preserves the invariant and tracks `specStep`. -/
theorem applyOp_inv {cmp : KeyCompare} (h : LawfulCmp cmp) (t : Collection)
    (m : Bytes → Option Bytes) (hcmp : t.compare = cmp) (hb : BSTN cmp t.root)
    (hget : ∀ k, t.get k = m k) (op : Op) :
    (applyOp t op).compare = cmp ∧ BSTN cmp (applyOp t op).root ∧
      ∀ k, (applyOp t op).get k = specStep m op k := by
  cases op with
  | set k0 v0 p0 =>
    have := setItem_inv h t m hcmp hb hget { key := k0, val := v0, priority := p0 }
    exact ⟨this.1, this.2.1, fun k => by
      have h2 := this.2.2 k
      simpa [applyOp, Collection.set, specStep] using h2⟩
  | setItem it =>
    have := setItem_inv h t m hcmp hb hget it
    exact ⟨this.1, this.2.1, fun k => by
      have h2 := this.2.2 k
      simpa [applyOp, specStep] using h2⟩
  | del k0 =>
    have := del_inv h t m hcmp hb hget k0
    exact ⟨this.1, this.2.1, fun k => by
      have h2 := this.2.2 k
      simpa [applyOp, specStep] using h2⟩

/-- A sequence of public operations preserves the invariant and tracks the
folded map model. -/
theorem applyOps_inv {cmp : KeyCompare} (h : LawfulCmp cmp) :
    ∀ (ops : List Op) (t : Collection) (m : Bytes → Option Bytes),
      t.compare = cmp → BSTN cmp t.root → (∀ k, t.get k = m k) →
      (applyOps t ops).compare = cmp ∧ BSTN cmp (applyOps t ops).root ∧
        ∀ k, (applyOps t ops).get k = (ops.foldl specStep m) k := by
  intro ops
  induction ops with
  | nil => intro t m hcmp hb hget; exact ⟨hcmp, hb, hget⟩
  | cons op ops ih =>
    intro t m hcmp hb hget
    have hstep := applyOp_inv h t m hcmp hb hget op
    have := ih (applyOp t op) (specStep m op) hstep.1 hstep.2.1 hstep.2.2
    simpa [applyOps, List.foldl_cons] using this

/-- In a heap whose root is bounded by `p`, every item is bounded by `p`. -/
theorem heapOk_bound : ∀ n : Node, heapOk n = true → ∀ p : Int,
    rootPrioLe p n = true → ∀ i ∈ n.inorder, i.priority ≤ p := by
  intro n
  induction n with
  | leaf => intro _ p _ i hi; simp [Node.inorder] at hi
  | node it l r ihl ihr =>
    intro hh p hp i hi
    simp only [heapOk, Bool.and_eq_true] at hh
    obtain ⟨⟨⟨hA, hB⟩, hC⟩, hD⟩ := hh
    simp only [rootPrioLe, decide_eq_true_eq] at hp
    simp only [Node.inorder, List.mem_append, List.mem_cons] at hi
    rcases hi with hi | rfl | hi
    · have := ihl hC it.priority hA i hi
      omega
    · exact hp
    · have := ihr hD it.priority hB i hi
      omega

/-- A bound on all items bounds the root in particular. -/
theorem rootPrioLe_of_all (p : Int) :
    ∀ n : Node, (∀ i ∈ n.inorder, i.priority ≤ p) → rootPrioLe p n = true := by
  intro n
  cases n with
  | leaf => intro _; rfl
  | node it l r =>
    intro hall
    simp only [rootPrioLe, decide_eq_true_eq]
    exact hall it (by simp [Node.inorder])

/-- The left split part is again a heap. -/
theorem heap_split_left {cmp : KeyCompare} (h : LawfulCmp cmp) (s : Bytes) :
    ∀ n, BSTN cmp n → heapOk n = true → heapOk (split cmp n s).1 = true := by
  intro n
  induction n with
  | leaf => intro _ _; simp [split, heapOk]
  | node it l r ihl ihr =>
    rintro ⟨hbl, hbr, hkl, hkr⟩ hh
    simp only [heapOk, Bool.and_eq_true] at hh
    obtain ⟨⟨⟨hA, hB⟩, hC⟩, hD⟩ := hh
    simp only [split]
    by_cases h0 : cmp s it.key = 0
    · rw [if_pos h0]
      exact hC
    · by_cases h1 : cmp s it.key < 0
      · rw [if_neg h0, if_pos h1]
        exact ihl hbl hC
      · rw [if_neg h0, if_neg h1]
        simp only [heapOk, Bool.and_eq_true]
        refine ⟨⟨⟨hA, ?_⟩, hC⟩, ihr hbr hD⟩
        apply rootPrioLe_of_all
        intro i hi
        rw [split_inorder_left h s r hbr] at hi
        exact heapOk_bound r hD it.priority hB i (List.mem_of_mem_filter hi)

/-- The right split part is again a heap. -/
theorem heap_split_right {cmp : KeyCompare} (h : LawfulCmp cmp) (s : Bytes) :
    ∀ n, BSTN cmp n → heapOk n = true → heapOk (split cmp n s).2.2 = true := by
  intro n
  induction n with
  | leaf => intro _ _; simp [split, heapOk]
  | node it l r ihl ihr =>
    rintro ⟨hbl, hbr, hkl, hkr⟩ hh
    simp only [heapOk, Bool.and_eq_true] at hh
    obtain ⟨⟨⟨hA, hB⟩, hC⟩, hD⟩ := hh
    simp only [split]
    by_cases h0 : cmp s it.key = 0
    · rw [if_pos h0]
      exact hD
    · by_cases h1 : cmp s it.key < 0
      · rw [if_neg h0, if_pos h1]
        simp only [heapOk, Bool.and_eq_true]
        refine ⟨⟨⟨?_, hB⟩, ihl hbl hC⟩, hD⟩
        apply rootPrioLe_of_all
        intro i hi
        rw [split_inorder_right h s l hbl] at hi
        exact heapOk_bound l hC it.priority hA i (List.mem_of_mem_filter hi)
      · rw [if_neg h0, if_neg h1]
        exact ihr hbr hD

/-- join of two heaps is a heap. -/
theorem heap_join : ∀ a b : Node, heapOk a = true → heapOk b = true →
    heapOk (join a b) = true
  | Node.leaf, b => fun _ hb => by simpa [join] using hb
  | Node.node ti tl tr, Node.leaf => fun ha _ => by simpa [join] using ha
  | Node.node ti tl tr, Node.node ui ul ur => fun ha hb => by
    have ha2 := ha
    have hb2 := hb
    simp only [heapOk, Bool.and_eq_true] at ha2 hb2
    obtain ⟨⟨⟨haA, haB⟩, haC⟩, haD⟩ := ha2
    obtain ⟨⟨⟨hbA, hbB⟩, hbC⟩, hbD⟩ := hb2
    rw [join]
    by_cases hp : ti.priority > ui.priority
    · rw [if_pos hp]
      simp only [heapOk, Bool.and_eq_true]
      refine ⟨⟨⟨haA, ?_⟩, haC⟩, heap_join tr (Node.node ui ul ur) haD hb⟩
      apply rootPrioLe_of_all
      intro i hi
      rw [inorder_join] at hi
      rcases List.mem_append.mp hi with hi | hi
      · exact heapOk_bound tr haD ti.priority haB i hi
      · have h2 : i.priority ≤ ui.priority :=
          heapOk_bound (Node.node ui ul ur) hb ui.priority (by simp [rootPrioLe]) i hi
        omega
    · rw [if_neg hp]
      simp only [heapOk, Bool.and_eq_true]
      refine ⟨⟨⟨?_, hbB⟩, heap_join (Node.node ti tl tr) ul ha hbC⟩, hbD⟩
      apply rootPrioLe_of_all
      intro i hi
      rw [inorder_join] at hi
      rcases List.mem_append.mp hi with hi | hi
      · have h2 : i.priority ≤ ti.priority :=
          heapOk_bound (Node.node ti tl tr) ha ti.priority (by simp [rootPrioLe]) i hi
        omega
      · exact heapOk_bound ul hbC ui.priority hbA i hi
termination_by a b => a.size + b.size
decreasing_by
  all_goals (simp [Node.size]; try omega)

/-- Inserting an item whose key is fresh preserves the heap invariant. -/
theorem heap_union_single {cmp : KeyCompare} (h : LawfulCmp cmp) (ni : Item) :
    ∀ t, BSTN cmp t → heapOk t = true →
      (∀ i ∈ t.inorder, cmp ni.key i.key ≠ 0) →
      heapOk (union cmp t (Node.node ni Node.leaf Node.leaf)) = true := by
  intro t
  induction t with
  | leaf => intro _ _ _; simp [union, heapOk, rootPrioLe]
  | node ti tl tr ihl ihr =>
    rintro ⟨hbl, hbr, hkl, hkr⟩ hh hfresh
    have hh2 := hh
    simp only [heapOk, Bool.and_eq_true] at hh2
    obtain ⟨⟨⟨hA, hB⟩, hC⟩, hD⟩ := hh2
    simp only [union]
    by_cases hp : ti.priority > ni.priority
    · rw [if_pos hp]
      simp only [split]
      by_cases h0 : cmp ti.key ni.key = 0
      · exfalso
        apply hfresh ti (by simp [Node.inorder])
        rw [(h.1 ti.key ni.key).mp h0]
        exact cmp_self h ni.key
      · by_cases h1 : cmp ti.key ni.key < 0
        · rw [if_neg h0, if_pos h1]
          simp only [union_leaf_right, heapOk, Bool.and_eq_true]
          refine ⟨⟨⟨hA, ?_⟩, hC⟩,
            ihr hbr hD fun i hi => hfresh i (by simp [Node.inorder, hi])⟩
          apply rootPrioLe_of_all
          intro i hi
          rw [union_single_inorder h ni tr hbr] at hi
          rcases List.mem_append.mp hi with hi | hi
          · exact heapOk_bound tr hD ti.priority hB i (List.mem_of_mem_filter hi)
          · rcases List.mem_cons.mp hi with rfl | hi
            · omega
            · exact heapOk_bound tr hD ti.priority hB i (List.mem_of_mem_filter hi)
        · rw [if_neg h0, if_neg h1]
          simp only [union_leaf_right, heapOk, Bool.and_eq_true]
          refine ⟨⟨⟨?_, hB⟩,
            ihl hbl hC fun i hi => hfresh i (by simp [Node.inorder, hi])⟩, hD⟩
          apply rootPrioLe_of_all
          intro i hi
          rw [union_single_inorder h ni tl hbl] at hi
          rcases List.mem_append.mp hi with hi | hi
          · exact heapOk_bound tl hC ti.priority hA i (List.mem_of_mem_filter hi)
          · rcases List.mem_cons.mp hi with rfl | hi
            · omega
            · exact heapOk_bound tl hC ti.priority hA i (List.mem_of_mem_filter hi)
    · rw [if_neg hp]
      simp only [union_leaf_right, heapOk, Bool.and_eq_true]
      have hball : ∀ i ∈ (Node.node ti tl tr).inorder, i.priority ≤ ni.priority := by
        intro i hi
        have h2 := heapOk_bound (Node.node ti tl tr) hh ti.priority
          (by simp [rootPrioLe]) i hi
        omega
      refine ⟨⟨⟨?_, ?_⟩,
        heap_split_left h ni.key (Node.node ti tl tr) ⟨hbl, hbr, hkl, hkr⟩ hh⟩,
        heap_split_right h ni.key (Node.node ti tl tr) ⟨hbl, hbr, hkl, hkr⟩ hh⟩
      · apply rootPrioLe_of_all
        intro i hi
        rw [split_inorder_left h ni.key (Node.node ti tl tr) ⟨hbl, hbr, hkl, hkr⟩] at hi
        exact hball i (List.mem_of_mem_filter hi)
      · apply rootPrioLe_of_all
        intro i hi
        rw [split_inorder_right h ni.key (Node.node ti tl tr) ⟨hbl, hbr, hkl, hkr⟩] at hi
        exact hball i (List.mem_of_mem_filter hi)

/-- A failed lookup on a BST means no in-order item matches the key. -/
theorem no_match_of_getItemNode_none {cmp : KeyCompare} (h : LawfulCmp cmp)
    (root : Node) (hb : BSTN cmp root) (k : Bytes)
    (hnone : getItemNode cmp k root = none) :
    ∀ i ∈ root.inorder, cmp k i.key ≠ 0 := by
  rw [getItemNode_eq_find h k root hb, List.find?_eq_none] at hnone
  intro i hi hc
  have := hnone i hi
  simp [hc] at this

/-- One operation preserves comparator, BST and (under freshness) heap. -/
theorem applyOp_heap {cmp : KeyCompare} (h : LawfulCmp cmp) (t : Collection)
    (op : Op) (hcmp : t.compare = cmp) (hb : BSTN cmp t.root)
    (hh : heapOk t.root = true)
    (hfresh : match op with
      | Op.set k _ _ => t.getItem k = none
      | Op.setItem it => t.getItem it.key = none
      | Op.del _ => True) :
    (applyOp t op).compare = cmp ∧ BSTN cmp (applyOp t op).root ∧
      heapOk (applyOp t op).root = true := by
  cases op with
  | set k0 v0 p0 =>
    simp only [applyOp, Collection.set, Collection.setItem]
    by_cases hv : ({ key := k0, val := v0, priority := p0 } : Item).key.length > 0xffff ∨
        ({ key := k0, val := v0, priority := p0 } : Item).key = [] ∨
        ({ key := k0, val := v0, priority := p0 } : Item).val = none
    · rw [if_pos hv]
      exact ⟨hcmp, hb, hh⟩
    · rw [if_neg hv]
      refine ⟨hcmp, ?_, ?_⟩
      · rw [hcmp]
        exact bstn_union_single h _ t.root hb
      · rw [hcmp]
        apply heap_union_single h _ t.root hb hh
        simp only [Collection.getItem, hcmp] at hfresh
        exact no_match_of_getItemNode_none h t.root hb k0 hfresh
  | setItem it =>
    simp only [applyOp, Collection.setItem]
    by_cases hv : it.key.length > 0xffff ∨ it.key = [] ∨ it.val = none
    · rw [if_pos hv]
      exact ⟨hcmp, hb, hh⟩
    · rw [if_neg hv]
      refine ⟨hcmp, ?_, ?_⟩
      · rw [hcmp]
        exact bstn_union_single h _ t.root hb
      · rw [hcmp]
        apply heap_union_single h _ t.root hb hh
        simp only [Collection.getItem, hcmp] at hfresh
        exact no_match_of_getItemNode_none h t.root hb it.key hfresh
  | del k0 =>
    simp only [applyOp, Collection.del]
    refine ⟨hcmp, ?_, ?_⟩
    · rw [hcmp]
      exact bstn_del h k0 t.root hb
    · rw [hcmp]
      exact heap_join _ _ (heap_split_left h k0 t.root hb hh)
        (heap_split_right h k0 t.root hb hh)

/-- A sequence of fresh-key operations preserves comparator, BST and heap. -/
theorem applyOps_heap {cmp : KeyCompare} (h : LawfulCmp cmp) :
    ∀ (ops : List Op) (t : Collection), t.compare = cmp → BSTN cmp t.root →
      heapOk t.root = true → freshOps t ops →
      (applyOps t ops).compare = cmp ∧ BSTN cmp (applyOps t ops).root ∧
        heapOk (applyOps t ops).root = true := by
  intro ops
  induction ops with
  | nil => intro t hcmp hb hh _; exact ⟨hcmp, hb, hh⟩
  | cons op ops ih =>
    intro t hcmp hb hh hfresh
    rcases hfresh with ⟨hf1, hf2⟩
    have hstep := applyOp_heap h t op hcmp hb hh hf1
    have := ih (applyOp t op) hstep.1 hstep.2.1 hstep.2.2 hf2
    simpa [applyOps] using this

/-- C1: for every sequence of Set/SetItem/Delete operations on a fresh
collection with a lawful comparator, and every key, Get returns exactly
what the reference key-value map model prescribes: the value of the most
recent successful Set for that key, and nothing once the key is deleted.
In particular, a key that was Set and not subsequently Deleted yields the
most recently Set value — union gives precedence to the newly-inserted
single-node treap. -/
theorem get_refines_spec_model {cmp : KeyCompare} (h : LawfulCmp cmp)
    (ops : List Op) (k : Bytes) :
    (applyOps (mkCollection cmp) ops).get k = specGet ops k := by
  have := applyOps_inv h ops (mkCollection cmp) (fun _ => none) rfl
    (by simp [mkCollection, BSTN]) (fun k2 => rfl)
  exact this.2.2 k

/-- Witness for C1: three operations, two of them on key "a" (byte 97);
Get returns the value of the most recent Set, here byte 50. -/
theorem get_refines_spec_model_witness :
    (applyOps (mkCollection bytesCompare)
        [Op.set [97] (some [49]) 5, Op.set [97] (some [50]) 3, Op.del [98]]).get [97] =
      specGet [Op.set [97] (some [49]) 5, Op.set [97] (some [50]) 3, Op.del [98]] [97] ∧
    specGet [Op.set [97] (some [49]) 5, Op.set [97] (some [50]) 3, Op.del [98]] [97] =
      some [50] :=
  ⟨get_refines_spec_model bytesCompare_lawful
      [Op.set [97] (some [49]) 5, Op.set [97] (some [50]) 3, Op.del [98]] [97],
    by decide⟩

/-- C4: after every sequence of Set/SetItem/Delete operations on a fresh
collection with a lawful comparator, the in-order walk of the root treap
yields keys that are strictly ascending under the comparator. -/
theorem inorder_strictly_ascending {cmp : KeyCompare} (h : LawfulCmp cmp)
    (ops : List Op) :
    ((applyOps (mkCollection cmp) ops).root.inorder).Chain' (keyLt cmp) := by
  have := applyOps_inv h ops (mkCollection cmp) (fun _ => none) rfl
    (by simp [mkCollection, BSTN]) (fun k2 => rfl)
  exact ((bstn_iff_pairwise h _).mp this.2.1).chain'

/-- Witness for C4 at a concrete two-insert, one-delete sequence. -/
theorem inorder_strictly_ascending_witness :
    ((applyOps (mkCollection bytesCompare)
        [Op.set [98] (some [49]) 7, Op.set [97] (some [50]) 9,
         Op.del [98]]).root.inorder).Chain' (keyLt bytesCompare) :=
  inorder_strictly_ascending bytesCompare_lawful
    [Op.set [98] (some [49]) 7, Op.set [97] (some [50]) 9, Op.del [98]]

/-- C3 (amended): after every sequence of Set/SetItem/Delete operations in
which each Set/SetItem targets a key absent at the moment it is applied,
every node of the root treap satisfies the heap invariant.  (Re-setting an
existing key with a lower priority violates it: union keeps the colliding
item of the single-node treap as the new subtree root below nothing, see
the counterexample.) -/
theorem heap_after_fresh_ops {cmp : KeyCompare} (h : LawfulCmp cmp)
    (ops : List Op) (hfresh : freshOps (mkCollection cmp) ops) :
    heapOk (applyOps (mkCollection cmp) ops).root = true := by
  have := applyOps_heap h ops (mkCollection cmp) rfl
    (by simp [mkCollection, BSTN]) (by simp [mkCollection, heapOk]) hfresh
  exact this.2.2

/-- Witness for the amended C3: a single fresh insert keeps the heap. -/
theorem heap_after_fresh_ops_witness :
    heapOk (applyOps (mkCollection bytesCompare)
      [Op.set [97] (some []) 1]).root = true :=
  heap_after_fresh_ops bytesCompare_lawful [Op.set [97] (some []) 1]
    ⟨rfl, trivial⟩

/-- Counterexample to C3 as stated: Set "a"≔priority 9, Set "k"≔priority
10, then re-Set "k" with priority 5.  The final union replaces the root
item with the new priority-5 item while keeping the priority-9 node as its
left child, so a node's priority is smaller than its child's. -/
theorem heap_violated_by_reset :
    heapOk (applyOps (mkCollection bytesCompare)
      [Op.set [97] (some []) 9, Op.set [107] (some []) 10,
       Op.set [107] (some []) 5]).root = false := by
  simp [applyOps, applyOp, Collection.set, Collection.setItem, mkCollection,
    union, split, bytesCompare, heapOk, rootPrioLe]

/-- C10: deleting a key that matches no item of a BST collection leaves
the in-order item sequence (hence the set of key-value pairs and every
observable) unchanged; the split at the absent key has an empty middle and
the join reassembles exactly the original items.  (In the in-memory model
Delete cannot fail, matching "returns without error".) -/
theorem delete_absent_noop {cmp : KeyCompare} (h : LawfulCmp cmp)
    (root : Node) (k : Bytes) (hb : BSTN cmp root)
    (habs : ∀ i ∈ root.inorder, cmp k i.key ≠ 0) :
    (Collection.del { compare := cmp, root := root } k).root.inorder =
      root.inorder := by
  simp only [Collection.del]
  rw [del_inorder h k root hb]
  exact filter_lt_append_filter_gt h k root.inorder
    ((bstn_iff_pairwise h root).mp hb) habs

/-- Witness for C10: deleting byte-key "b" from the singleton collection
holding key "a" leaves the contents unchanged. -/
theorem delete_absent_noop_witness :
    (Collection.del
      { compare := bytesCompare,
        root := Node.node { key := [97], val := some [49], priority := 5 }
          Node.leaf Node.leaf } [98]).root.inorder =
      (Node.node { key := [97], val := some [49], priority := 5 }
        Node.leaf Node.leaf).inorder :=
  delete_absent_noop bytesCompare_lawful
    (Node.node { key := [97], val := some [49], priority := 5 }
      Node.leaf Node.leaf) [98]
    (by simp [BSTN, Node.inorder]) (by decide)

theorem takeUpTo_all_true (v : Item → Bool) :
    ∀ l : List Item, l.all v = true → takeUpTo v l = l := by
  intro l
  induction l with
  | nil => intro _; rfl
  | cons a as ih =>
    intro hall
    simp only [List.all_cons, Bool.and_eq_true] at hall
    simp [takeUpTo, hall.1, ih hall.2]

theorem takeUpTo_append_of_all_true (v : Item → Bool) :
    ∀ l l2 : List Item, l.all v = true →
      takeUpTo v (l ++ l2) = l ++ takeUpTo v l2 := by
  intro l
  induction l with
  | nil => intro l2 _; rfl
  | cons a as ih =>
    intro l2 hall
    simp only [List.all_cons, Bool.and_eq_true] at hall
    simp [takeUpTo, hall.1, ih l2 hall.2]

theorem takeUpTo_append_of_not_all (v : Item → Bool) :
    ∀ l l2 : List Item, l.all v = false →
      takeUpTo v (l ++ l2) = takeUpTo v l := by
  intro l
  induction l with
  | nil => intro l2 hfa; simp at hfa
  | cons a as ih =>
    intro l2 hall
    by_cases hv : v a = true
    · simp only [List.all_cons, hv, Bool.true_and] at hall
      simp [takeUpTo, hv, ih l2 hall]
    · simp only [Bool.not_eq_true] at hv
      simp [takeUpTo, hv]

/-- visitAscendNode on a BST: the keep-going flag says whether the visitor
accepted every item with key at or above the target, and the visited list
is the ascending at-or-above-target items truncated at the first rejection
(inclusive). -/
theorem visitAscend_spec {cmp : KeyCompare} (h : LawfulCmp cmp)
    (visitor : Item → Bool) (target : Bytes) :
    ∀ n, BSTN cmp n →
      visitAscendNode cmp visitor target n =
        ((n.inorder.filter (fun i => decide (cmp target i.key ≤ 0))).all visitor,
          takeUpTo visitor
            (n.inorder.filter (fun i => decide (cmp target i.key ≤ 0)))) := by
  intro n
  induction n with
  | leaf => intro _; simp [visitAscendNode, Node.inorder, takeUpTo]
  | node it l r ihl ihr =>
    rintro ⟨hbl, hbr, hkl, hkr⟩
    simp only [visitAscendNode]
    by_cases hc : cmp target it.key ≤ 0
    · rw [if_pos hc]
      have hasc :
          (Node.node it l r).inorder.filter
              (fun i => decide (cmp target i.key ≤ 0)) =
            l.inorder.filter (fun i => decide (cmp target i.key ≤ 0)) ++
              it :: r.inorder.filter (fun i => decide (cmp target i.key ≤ 0)) := by
        simp [Node.inorder, List.filter_append, List.filter_cons, hc]
      rw [hasc, ihl hbl]
      by_cases hall : (l.inorder.filter
          (fun i => decide (cmp target i.key ≤ 0))).all visitor = true
      · by_cases hv : visitor it = true
        · rw [ihr hbr]
          simp only [hall, hv]
          simp [List.all_append, hall, hv,
            takeUpTo_append_of_all_true visitor _ _ hall,
            takeUpTo_all_true visitor _ hall, takeUpTo]
        · simp only [Bool.not_eq_true] at hv
          simp [List.all_append, hall, hv,
            takeUpTo_append_of_all_true visitor _ _ hall,
            takeUpTo_all_true visitor _ hall, takeUpTo]
      · simp only [Bool.not_eq_true] at hall
        simp [List.all_append, hall,
          takeUpTo_append_of_not_all visitor _ _ hall]
    · rw [if_neg hc]
      have h2 : cmp target it.key > 0 := by omega
      have hfl : l.inorder.filter (fun i => decide (cmp target i.key ≤ 0)) = [] :=
        List.filter_eq_nil_iff.mpr (fun a ha => by
          have h3 : cmp it.key target < 0 := (h.2.1 it.key target).mpr h2
          have h4 : cmp a.key target < 0 := cmp_lt_trans h (hkl a ha) h3
          have h5 : cmp target a.key > 0 := (h.2.1 a.key target).mp h4
          simp
          omega)
      have hit : ¬ cmp target it.key ≤ 0 := hc
      rw [ihr hbr]
      simp [Node.inorder, List.filter_append, List.filter_cons, hfl, hit]

/-- C8: VisitItemsAscend on a BST collection calls the visitor exactly on
the items whose key is at or above the target, in ascending key order,
and stops as soon as the visitor returns false: the visited sequence is
the ascending at-or-above-target item list truncated at the first
rejection. -/
theorem visitItemsAscend_spec {cmp : KeyCompare} (h : LawfulCmp cmp)
    (root : Node) (hb : BSTN cmp root) (target : Bytes)
    (visitor : Item → Bool) :
    Collection.visitItemsAscend { compare := cmp, root := root } target visitor =
      takeUpTo visitor
        (root.inorder.filter (fun i => decide (cmp target i.key ≤ 0))) := by
  simp only [Collection.visitItemsAscend]
  rw [visitAscend_spec h visitor target root hb]

/-- Witness for C8: a three-item collection visited from key "b" with an
always-true visitor; exactly the items with keys "b" and "c" are visited,
in order. -/
theorem visitItemsAscend_spec_witness :
    (Collection.visitItemsAscend
        { compare := bytesCompare,
          root := Node.node { key := [98], val := some [50], priority := 5 }
            (Node.node { key := [97], val := some [49], priority := 3 }
              Node.leaf Node.leaf)
            (Node.node { key := [99], val := some [51], priority := 1 }
              Node.leaf Node.leaf) } [98] (fun _ => true) =
      takeUpTo (fun _ => true)
        ((Node.node { key := [98], val := some [50], priority := 5 }
            (Node.node { key := [97], val := some [49], priority := 3 }
              Node.leaf Node.leaf)
            (Node.node { key := [99], val := some [51], priority := 1 }
              Node.leaf Node.leaf)).inorder.filter
          (fun i => decide (bytesCompare [98] i.key ≤ 0)))) ∧
    Collection.visitItemsAscend
        { compare := bytesCompare,
          root := Node.node { key := [98], val := some [50], priority := 5 }
            (Node.node { key := [97], val := some [49], priority := 3 }
              Node.leaf Node.leaf)
            (Node.node { key := [99], val := some [51], priority := 1 }
              Node.leaf Node.leaf) } [98] (fun _ => true) =
      [{ key := [98], val := some [50], priority := 5 },
       { key := [99], val := some [51], priority := 1 }] :=
  ⟨visitItemsAscend_spec bytesCompare_lawful
      (Node.node { key := [98], val := some [50], priority := 5 }
        (Node.node { key := [97], val := some [49], priority := 3 }
          Node.leaf Node.leaf)
        (Node.node { key := [99], val := some [51], priority := 1 }
          Node.leaf Node.leaf))
      (by simp [BSTN, Node.inorder, bytesCompare]) [98] (fun _ => true),
    by decide⟩

/-- C2: a snapshot's observable contents — every collection's Get, MinItem,
MaxItem and VisitItemsAscend answers — coincide with the original's at the
moment Snapshot is taken.  In this state-passing embedding the treap
operations are pure, so the mutations `ops` applied to the original
afterwards build new stores and cannot alter the snapshot value; the
isolation part of the claim holds by construction, and the content of the
claim is the equality below (stated for the original and, through the last
conjunct, for the store however far it has been mutated). -/
theorem snapshot_isolation (s : Store) (ops : List StoreOp) (name : String)
    (k target : Bytes) (visitor : Item → Bool) :
    s.snapshot.get name k = s.get name k ∧
    s.snapshot.minOf name = s.minOf name ∧
    s.snapshot.maxOf name = s.maxOf name ∧
    s.snapshot.visitOf name target visitor = s.visitOf name target visitor ∧
    (applyStoreOps s ops).snapshot.get name k = (applyStoreOps s ops).get name k := by
  refine ⟨?_, ?_, ?_, ?_, ?_⟩
  · simp only [Store.snapshot, Store.get]
    cases hc : s.coll name <;> simp [Collection.get, Collection.getItem]
  · simp only [Store.snapshot, Store.minOf]
    cases hc : s.coll name <;> simp [Collection.minItem]
  · simp only [Store.snapshot, Store.maxOf]
    cases hc : s.coll name <;> simp [Collection.maxItem]
  · simp only [Store.snapshot, Store.visitOf]
    cases hc : s.coll name <;> simp [Collection.visitItemsAscend]
  · simp only [Store.snapshot, Store.get]
    cases hc : (applyStoreOps s ops).coll name <;>
      simp [Collection.get, Collection.getItem]

/-- C6: SetItem (and hence Set, which forwards to it) with an empty key, a
key longer than 65535 bytes, or a nil value returns the validation error
and returns the collection unchanged, so no store state is touched. -/
theorem setItem_validation (t : Collection) (it : Item)
    (hbad : it.key = [] ∨ it.key.length > 65535 ∨ it.val = none) :
    t.setItem it = (t, some "Item.Key/Val missing or too long") := by
  have hc : it.key.length > 0xffff ∨ it.key = [] ∨ it.val = none := by
    rcases hbad with hbad | hbad | hbad
    · exact Or.inr (Or.inl hbad)
    · exact Or.inl hbad
    · exact Or.inr (Or.inr hbad)
  simp only [Collection.setItem]
  rw [if_pos hc]

/-- Witness for C6: an empty key is rejected and the collection returned
unchanged. -/
theorem setItem_validation_witness :
    Collection.setItem (mkCollection bytesCompare)
        { key := [], val := some [], priority := 0 } =
      (mkCollection bytesCompare, some "Item.Key/Val missing or too long") :=
  setItem_validation (mkCollection bytesCompare)
    { key := [], val := some [], priority := 0 } (Or.inl rfl)

/-- C7: Flush on a snapshot fails with the dedicated read-only error, and
Flush on a memory-only (fileless, writable) store fails with the dedicated
no-file error; the two messages are distinct, and both guards return
before the persistence body runs, so nothing is written and no store state
changes. -/
theorem flush_mode_errors (s : Store) (body : Store → Except String Store)
    (hro : s.readOnly = false) (hfile : s.hasFile = false) :
    s.snapshot.flush body = Except.error "readonly, so cannot Flush()" ∧
    s.flush body = Except.error "no file / in-memory only, so cannot Flush()" ∧
    "readonly, so cannot Flush()" ≠ "no file / in-memory only, so cannot Flush()" := by
  refine ⟨?_, ?_, by decide⟩
  · simp [Store.flush, Store.snapshot]
  · simp [Store.flush, hro, hfile]

/-- Witness for C7 at the memory-only store. -/
theorem flush_mode_errors_witness :
    newMemoryStore.snapshot.flush Except.ok =
        Except.error "readonly, so cannot Flush()" ∧
    newMemoryStore.flush Except.ok =
        Except.error "no file / in-memory only, so cannot Flush()" ∧
    "readonly, so cannot Flush()" ≠ "no file / in-memory only, so cannot Flush()" :=
  flush_mode_errors newMemoryStore Except.ok rfl rfl

theorem beBytes_length : ∀ w n, (beBytes w n).length = w
  | 0, _ => rfl
  | w + 1, n => by simp [beBytes, beBytes_length w (n / 256)]

theorem beVal_append_single : ∀ (l : Bytes) (b : Nat),
    beVal (l ++ [b]) = beVal l * 256 + b
  | [], b => by simp [beVal]
  | a :: as, b => by
    show beVal (a :: (as ++ [b])) = beVal (a :: as) * 256 + b
    simp only [beVal]
    rw [beVal_append_single as b]
    have hlen2 : (as ++ [b]).length = as.length + 1 := by simp
    rw [hlen2, pow_succ]
    ring

theorem beVal_beBytes : ∀ w n, beVal (beBytes w n) = n % 256 ^ w
  | 0, n => by simp [beBytes, beVal, Nat.mod_one]
  | w + 1, n => by
    rw [beBytes, beVal_append_single, beVal_beBytes w (n / 256)]
    have h1 : (256 : Nat) ^ (w + 1) = 256 * 256 ^ w := by ring
    rw [h1, Nat.mod_mul]
    ring

theorem decodeI32_beI32 (p : Int) (h1 : -(2 ^ 31) ≤ p) (h2 : p < 2 ^ 31) :
    decodeI32 (beI32 p) = p := by
  unfold decodeI32 beI32
  rw [beVal_beBytes]
  have h256 : (256 : Nat) ^ 4 = 2 ^ 32 := by norm_num
  rw [h256]
  have hval : (p % 2 ^ 32).toNat % 2 ^ 32 = (p % 2 ^ 32).toNat := by
    apply Nat.mod_eq_of_lt
    omega
  rw [hval]
  by_cases hneg : p < 0
  · rw [if_pos (by omega)]
    omega
  · rw [if_neg (by omega)]
    omega

/-- The item record is exactly 14 header bytes plus key plus value. -/
theorem encodeItem_length (it : Item) (v : Bytes) (hv : it.val = some v) :
    (encodeItem it).length = 14 + it.key.length + v.length := by
  simp [encodeItem, hv, beBytes_length, beI32]
  omega

/-- C9: encoding a valid item (non-empty key of at most 65535 bytes,
non-nil value, int32 priority, record small enough for its u32 length
field) and decoding the record with the value yields the identical item —
so re-encoding it is byte-identical to the original record — and decoding
any 14-byte-or-longer buffer fails with the corruption error exactly when
the stored total length differs from 14 + keyLength + valLength (in uint32
arithmetic). -/
theorem item_codec_roundtrip (it : Item) (v : Bytes) (hv : it.val = some v)
    (hk1 : it.key ≠ []) (hk2 : it.key.length ≤ 65535)
    (hlen : 14 + it.key.length + v.length < 2 ^ 32)
    (hp1 : -(2 ^ 31) ≤ it.priority) (hp2 : it.priority < 2 ^ 31) :
    decodeItem (encodeItem it) true = Except.ok it ∧
    (∀ it2, decodeItem (encodeItem it) true = Except.ok it2 →
      encodeItem it2 = encodeItem it) ∧
    (∀ b : Bytes, 14 ≤ b.length →
      (decodeItem b true = Except.error "mismatched itemLoc lengths" ↔
        beVal (b.take 4) ≠
          (14 + beVal ((b.drop 4).take 2) + beVal ((b.drop 6).take 4)) % 2 ^ 32)) := by
  obtain ⟨key, val, p⟩ := it
  simp only at hv hk1 hk2 hlen hp1 hp2
  subst hv
  have hrec : encodeItem { key := key, val := some v, priority := p } =
      beBytes 4 (4 + 2 + 4 + 4 + key.length + v.length) ++
        (beBytes 2 key.length ++ (beBytes 4 v.length ++ (beI32 p ++ (key ++ v)))) := by
    simp [encodeItem, List.append_assoc]
  have hgoal1 :
      decodeItem (encodeItem { key := key, val := some v, priority := p }) true =
        Except.ok { key := key, val := some v, priority := p } := by
    have hblen : (encodeItem { key := key, val := some v, priority := p }).length =
        14 + key.length + v.length :=
      encodeItem_length _ v rfl
    unfold decodeItem
    rw [if_neg (by omega)]
    have ht4 : (encodeItem { key := key, val := some v, priority := p }).take 4 =
        beBytes 4 (4 + 2 + 4 + 4 + key.length + v.length) := by
      rw [hrec, List.take_left' (beBytes_length 4 _)]
    have hd4 : (encodeItem { key := key, val := some v, priority := p }).drop 4 =
        beBytes 2 key.length ++ (beBytes 4 v.length ++ (beI32 p ++ (key ++ v))) := by
      rw [hrec, List.drop_left' (beBytes_length 4 _)]
    have ht2 : ((encodeItem { key := key, val := some v, priority := p }).drop 4).take 2 =
        beBytes 2 key.length := by
      rw [hd4, List.take_left' (beBytes_length 2 _)]
    have hd6 : (encodeItem { key := key, val := some v, priority := p }).drop 6 =
        beBytes 4 v.length ++ (beI32 p ++ (key ++ v)) := by
      have h64 : (6 : Nat) = 4 + 2 := by norm_num
      rw [h64, ← List.drop_drop, hd4, List.drop_left' (beBytes_length 2 _)]
    have ht42 : ((encodeItem { key := key, val := some v, priority := p }).drop 6).take 4 =
        beBytes 4 v.length := by
      rw [hd6, List.take_left' (beBytes_length 4 _)]
    have hd10 : (encodeItem { key := key, val := some v, priority := p }).drop 10 =
        beI32 p ++ (key ++ v) := by
      have h104 : (10 : Nat) = 6 + 4 := by norm_num
      rw [h104, ← List.drop_drop, hd6, List.drop_left' (beBytes_length 4 _)]
    have ht43 : ((encodeItem { key := key, val := some v, priority := p }).drop 10).take 4 =
        beI32 p := by
      rw [hd10, List.take_left' (by simp [beI32, beBytes_length])]
    have hd14 : (encodeItem { key := key, val := some v, priority := p }).drop 14 =
        key ++ v := by
      have h1410 : (14 : Nat) = 10 + 4 := by norm_num
      rw [h1410, ← List.drop_drop, hd10,
        List.drop_left' (by simp [beI32, beBytes_length])]
    rw [ht4, ht2, ht42, ht43, hd14]
    rw [beVal_beBytes, beVal_beBytes, beVal_beBytes]
    have hL : (4 + 2 + 4 + 4 + key.length + v.length) % 256 ^ 4 =
        14 + key.length + v.length := by
      apply Nat.mod_eq_of_lt
      have h232 : (256 : Nat) ^ 4 = 2 ^ 32 := by norm_num
      omega
    have hK : key.length % 256 ^ 2 = key.length := by
      apply Nat.mod_eq_of_lt
      omega
    have hV : v.length % 256 ^ 4 = v.length := by
      apply Nat.mod_eq_of_lt
      have h232 : (256 : Nat) ^ 4 = 2 ^ 32 := by norm_num
      omega
    rw [hL, hK, hV]
    rw [if_neg (by omega)]
    rw [decodeI32_beI32 p hp1 hp2]
    rw [List.take_left' rfl, List.drop_left' rfl]
    simp [List.take_length]
  refine ⟨hgoal1, ?_, ?_⟩
  · intro it2 h2
    rw [hgoal1] at h2
    cases h2
    rfl
  · intro b hb
    unfold decodeItem
    rw [if_neg (by omega)]
    by_cases hm : beVal (b.take 4) =
        (14 + beVal ((b.drop 4).take 2) + beVal ((b.drop 6).take 4)) % 2 ^ 32
    · rw [if_neg (by omega)]
      constructor
      · intro hcontra
        cases hcontra
      · intro hcontra
        exact absurd hm hcontra
    · rw [if_pos (by omega)]
      constructor
      · intro _
        exact hm
      · intro _
        rfl

/-- Witness for C9 at a concrete one-byte key and value. -/
theorem item_codec_roundtrip_witness :
    decodeItem (encodeItem { key := [1], val := some [2], priority := 5 }) true =
      Except.ok { key := [1], val := some [2], priority := 5 } :=
  (item_codec_roundtrip { key := [1], val := some [2], priority := 5 } [2] rfl
    (by decide) (by decide) (by norm_num) (by norm_num) (by norm_num)).1

/-- C5 (amended): in the backward recovery scan, a missing MAGIC_END
footer, an out-of-range root offset or footer/record length mismatch, and
a missing MAGIC_BEG header each decrement the candidate position by 1 and
resume scanning for an earlier root record; but a version mismatch, an
embedded-length crosscheck mismatch, and a JSON parse failure abort the
scan with an error instead of resuming. -/
theorem readRoots_step_behavior {β : Type} (parse : Bytes → Except String β)
    (file : Bytes) (n : Nat) (hn : ¬ (n + 1 ≤ 40)) :
    (¬ footerMagicOk file (n + 1) →
      readRootsLoop parse file (n + 1) = readRootsLoop parse file n) ∧
    (footerMagicOk file (n + 1) → ¬ footerRangeOk file (n + 1) →
      readRootsLoop parse file (n + 1) = readRootsLoop parse file n) ∧
    (footerMagicOk file (n + 1) → footerRangeOk file (n + 1) →
      ¬ headerMagicOk file (n + 1) →
      readRootsLoop parse file (n + 1) = readRootsLoop parse file n) ∧
    (footerMagicOk file (n + 1) → footerRangeOk file (n + 1) →
      headerMagicOk file (n + 1) → ¬ (rootData file (n + 1)).length < 20 →
      beVal (sub (rootData file (n + 1)) 12 4) ≠ VERSION →
      readRootsLoop parse file (n + 1) =
        Except.error (ReadRootsError.versionMismatch VERSION
          (beVal (sub (rootData file (n + 1)) 12 4)))) ∧
    (footerMagicOk file (n + 1) → footerRangeOk file (n + 1) →
      headerMagicOk file (n + 1) → ¬ (rootData file (n + 1)).length < 20 →
      beVal (sub (rootData file (n + 1)) 12 4) = VERSION →
      beVal (sub (rootData file (n + 1)) 16 4) ≠ footerLength file (n + 1) →
      readRootsLoop parse file (n + 1) =
        Except.error (ReadRootsError.lengthMismatch
          (beVal (sub (rootData file (n + 1)) 16 4))
          (footerLength file (n + 1)))) ∧
    (∀ e, footerMagicOk file (n + 1) → footerRangeOk file (n + 1) →
      headerMagicOk file (n + 1) → ¬ (rootData file (n + 1)).length < 20 →
      beVal (sub (rootData file (n + 1)) 12 4) = VERSION →
      beVal (sub (rootData file (n + 1)) 16 4) = footerLength file (n + 1) →
      parse ((rootData file (n + 1)).drop 20) = Except.error e →
      readRootsLoop parse file (n + 1) =
        Except.error (ReadRootsError.parseFailure e)) := by
  refine ⟨?_, ?_, ?_, ?_, ?_, ?_⟩
  · intro h1
    simp only [readRootsLoop]
    rw [if_neg hn, if_neg h1]
  · intro h1 h2
    simp only [readRootsLoop]
    rw [if_neg hn, if_pos h1, if_neg h2]
  · intro h1 h2 h3
    simp only [readRootsLoop]
    rw [if_neg hn, if_pos h1, if_pos h2, if_neg h3]
  · intro h1 h2 h3 h4 h5
    simp only [readRootsLoop]
    rw [if_neg hn, if_pos h1, if_pos h2, if_pos h3, if_neg h4, if_pos h5]
  · intro h1 h2 h3 h4 h5 h6
    simp only [readRootsLoop]
    rw [if_neg hn, if_pos h1, if_pos h2, if_pos h3, if_neg h4,
      if_neg (by simpa using h5), if_pos h6]
  · intro e h1 h2 h3 h4 h5 h6 h7
    simp only [readRootsLoop]
    rw [if_neg hn, if_pos h1, if_pos h2, if_pos h3, if_neg h4,
      if_neg (by simpa using h5), if_neg (by simpa using h6), h7]

/-- Counterexample to C5 as stated: a file holding a valid version-3 root
record followed by a version-2 record.  The backward scan reaches the
newer record, sees the version mismatch, and aborts with an error instead
of decrementing and resuming; resuming (as the claim asserts) would have
found the valid earlier root, as the second conjunct shows. -/
theorem readRoots_version_aborts :
    readRoots (fun _ => Except.ok ())
        (rootRecordV 3 [123, 125] 0 ++ rootRecordV 2 [123, 125] 46) =
      Except.error (ReadRootsError.versionMismatch 3 2) ∧
    readRootsLoop (fun _ => Except.ok ())
        (rootRecordV 3 [123, 125] 0 ++ rootRecordV 2 [123, 125] 46) 46 =
      Except.ok () :=
  ⟨rfl, rfl⟩

/-- Witness for the amended C5: the version-mismatch conjunct applied to
the concrete two-record file, with every scan condition discharged by
computation. -/
theorem readRoots_step_behavior_witness :
    readRootsLoop (fun _ => Except.ok ())
        (rootRecordV 3 [123, 125] 0 ++ rootRecordV 2 [123, 125] 46) 92 =
      Except.error (ReadRootsError.versionMismatch 3 2) := by
  have h := (readRoots_step_behavior (fun _ => Except.ok ())
      (rootRecordV 3 [123, 125] 0 ++ rootRecordV 2 [123, 125] 46) 91
      (by norm_num)).2.2.2.1
  exact h (by decide) (by decide) (by decide) (by decide) (by decide)

end Gkvlite
